import Mathlib

/-!
Shallow embedding of the plonky2-bls12-381-pairing repository's core:
the BLS12-381 extension-field tower arithmetic (native and circuit form)
and the optimal-ate multi-Miller-loop, together with proofs of the
specification claims about them.

Native-form field values (the ark_bls12_381 types Fq, Fq2, Fq6, Fq12 used by
src/native/miller_loop.rs) are embedded as residues modulo the BLS12-381 base
prime and as pairs/triples of such residues, with the tower arithmetic the
external ark library implements.  Circuit-form targets are embedded by their
denotation under witness filling: an FqTarget wire denotes the base-field
value it carries once witnesses are filled, so each builder operation denotes
the corresponding field operation.
-/

namespace BLS

/-- Modulus of the BLS12-381 base prime field (the 381-bit prime over which
G1 coordinates live). -/
def p : ℕ :=
  0x1a0111ea397fe69a4b1ba7b6434bacd764774b84f38512bf6730d2a0f6b0f6241eabfffeb153ffffb9feffffffffaaab

/-- Base-field element: a residue modulo the BLS12-381 base prime. -/
abbrev Fq : Type := ZMod p

/-- Modelled from the spec (src/utils/constants.rs is not part of src/):
the absolute value of the BLS12-381 pairing loop parameter x. -/
def BLS_X : ℕ := 0xd201000000010000

/-- Modelled from the spec (src/utils/constants.rs is not part of src/):
the BLS12-381 loop parameter is negative. -/
def BLS_X_IS_NEGATIVE : Bool := true

/-- Big-endian bit sequence of a 64-bit word, as produced by
BitIteratorBE::new([w]) over a one-limb array. -/
def bitIteratorBE64 (w : ℕ) : List Bool :=
  (List.range 64).map (fun i => w.testBit (63 - i))

/-- Big-endian bit sequence with leading zero bits removed, as produced by
BitIteratorBE::without_leading_zeros([w]). -/
def bitIteratorBE64noLeadingZeros (w : ℕ) : List Bool :=
  (bitIteratorBE64 w).dropWhile (fun b => !b)

/-- Bit schedule driving G2 preparation: BitIteratorBE::new([BLS_X]).skip(1). -/
def prepareBits : List Bool := (bitIteratorBE64 BLS_X).drop 1

/-- Bit schedule driving the Miller loop:
BitIteratorBE::without_leading_zeros([BLS_X]).skip(1). -/
def loopBits : List Bool := (bitIteratorBE64noLeadingZeros BLS_X).drop 1

/-- Quadratic-extension element c0 + c1 u with u ^ 2 = -1 (the ark Fq2 value
type, and equally the denotation of an Fq2Target wire pair). -/
structure Fq2 where
  c0 : Fq
  c1 : Fq
deriving DecidableEq

namespace Fq2

def zero : Fq2 := ⟨0, 0⟩

def one : Fq2 := ⟨1, 0⟩

def add (a b : Fq2) : Fq2 := ⟨a.c0 + b.c0, a.c1 + b.c1⟩

def sub (a b : Fq2) : Fq2 := ⟨a.c0 - b.c0, a.c1 - b.c1⟩

def neg (a : Fq2) : Fq2 := ⟨-a.c0, -a.c1⟩

/-- Product in Fq[u]/(u ^ 2 + 1): (a0 + a1 u)(b0 + b1 u)
= (a0 b0 - a1 b1) + (a0 b1 + a1 b0) u. -/
def mul (a b : Fq2) : Fq2 :=
  ⟨a.c0 * b.c0 - a.c1 * b.c1, a.c0 * b.c1 + a.c1 * b.c0⟩

theorem mk_eq {a0 a1 b0 b1 : Fq} :
    (Fq2.mk a0 a1 = Fq2.mk b0 b1) ↔ (a0 = b0 ∧ a1 = b1) := by
  constructor
  · intro h; cases h; exact ⟨rfl, rfl⟩
  · rintro ⟨rfl, rfl⟩; rfl

theorem add_assoc_def (a b c : Fq2) : (a.add b).add c = a.add (b.add c) := by
  cases a; cases b; cases c
  simp only [Fq2.add, mk_eq]
  constructor <;> ring

theorem zero_add_def (a : Fq2) : Fq2.zero.add a = a := by
  cases a
  simp only [Fq2.add, Fq2.zero, mk_eq]
  constructor <;> ring

theorem add_zero_def (a : Fq2) : a.add Fq2.zero = a := by
  cases a
  simp only [Fq2.add, Fq2.zero, mk_eq]
  constructor <;> ring

theorem add_comm_def (a b : Fq2) : a.add b = b.add a := by
  cases a; cases b
  simp only [Fq2.add, mk_eq]
  constructor <;> ring

theorem left_distrib_def (a b c : Fq2) :
    a.mul (b.add c) = (a.mul b).add (a.mul c) := by
  cases a; cases b; cases c
  simp only [Fq2.add, Fq2.mul, mk_eq]
  constructor <;> ring

theorem right_distrib_def (a b c : Fq2) :
    (a.add b).mul c = (a.mul c).add (b.mul c) := by
  cases a; cases b; cases c
  simp only [Fq2.add, Fq2.mul, mk_eq]
  constructor <;> ring

theorem zero_mul_def (a : Fq2) : Fq2.zero.mul a = Fq2.zero := by
  cases a
  simp only [Fq2.mul, Fq2.zero, mk_eq]
  constructor <;> ring

theorem mul_zero_def (a : Fq2) : a.mul Fq2.zero = Fq2.zero := by
  cases a
  simp only [Fq2.mul, Fq2.zero, mk_eq]
  constructor <;> ring

theorem mul_assoc_def (a b c : Fq2) : (a.mul b).mul c = a.mul (b.mul c) := by
  cases a; cases b; cases c
  simp only [Fq2.mul, mk_eq]
  constructor <;> ring

theorem one_mul_def (a : Fq2) : Fq2.one.mul a = a := by
  cases a
  simp only [Fq2.mul, Fq2.one, mk_eq]
  constructor <;> ring

theorem mul_one_def (a : Fq2) : a.mul Fq2.one = a := by
  cases a
  simp only [Fq2.mul, Fq2.one, mk_eq]
  constructor <;> ring

theorem neg_add_cancel_def (a : Fq2) : a.neg.add a = Fq2.zero := by
  cases a
  simp only [Fq2.add, Fq2.neg, Fq2.zero, mk_eq]
  constructor <;> ring

theorem mul_comm_def (a b : Fq2) : a.mul b = b.mul a := by
  cases a; cases b
  simp only [Fq2.mul, mk_eq]
  constructor <;> ring

theorem sub_eq_add_neg_def (a b : Fq2) : a.sub b = a.add b.neg := by
  cases a; cases b
  simp only [Fq2.add, Fq2.sub, Fq2.neg, mk_eq]
  constructor <;> ring

/-- Commutative ring structure on the quadratic extension; the operations
are exactly the component formulas above. -/
instance instCommRing : CommRing Fq2 where
  add := Fq2.add
  zero := Fq2.zero
  neg := Fq2.neg
  sub := Fq2.sub
  mul := Fq2.mul
  one := Fq2.one
  nsmul := @nsmulRec Fq2 ⟨Fq2.zero⟩ ⟨Fq2.add⟩
  nsmul_zero := fun _ => rfl
  nsmul_succ := fun _ _ => rfl
  zsmul := @zsmulRec Fq2 ⟨Fq2.zero⟩ ⟨Fq2.add⟩ ⟨Fq2.neg⟩
    (@nsmulRec Fq2 ⟨Fq2.zero⟩ ⟨Fq2.add⟩)
  zsmul_zero' := fun _ => rfl
  zsmul_succ' := fun _ _ => rfl
  zsmul_neg' := fun _ _ => rfl
  add_assoc := add_assoc_def
  zero_add := zero_add_def
  add_zero := add_zero_def
  add_comm := add_comm_def
  left_distrib := left_distrib_def
  right_distrib := right_distrib_def
  zero_mul := zero_mul_def
  mul_zero := mul_zero_def
  mul_assoc := mul_assoc_def
  one_mul := one_mul_def
  mul_one := mul_one_def
  neg_add_cancel := neg_add_cancel_def
  mul_comm := mul_comm_def
  sub_eq_add_neg := sub_eq_add_neg_def

/-- Squaring, mathematically x * x (ark's optimized complex squaring computes
the same value). -/
def square (a : Fq2) : Fq2 := a * a

def double (a : Fq2) : Fq2 := a + a

/-- Scalar multiplication by a base-field element (ark's mul_assign_by_fp). -/
def mul_assign_by_fp (a : Fq2) (s : Fq) : Fq2 := ⟨a.c0 * s, a.c1 * s⟩

/-- Multiplication by the quadratic non-residue xi = 1 + u used to build the
sextic extension: (a + b u)(1 + u) = (a - b) + (a + b) u. -/
def mul_by_nonresidue (a : Fq2) : Fq2 := ⟨a.c0 - a.c1, a.c0 + a.c1⟩

@[simp] theorem zero_c0 : (0 : Fq2).c0 = 0 := rfl

@[simp] theorem zero_c1 : (0 : Fq2).c1 = 0 := rfl

@[simp] theorem one_c0 : (1 : Fq2).c0 = 1 := rfl

@[simp] theorem one_c1 : (1 : Fq2).c1 = 0 := rfl

@[simp] theorem add_c0 (a b : Fq2) : (a + b).c0 = a.c0 + b.c0 := rfl

@[simp] theorem add_c1 (a b : Fq2) : (a + b).c1 = a.c1 + b.c1 := rfl

@[simp] theorem sub_c0 (a b : Fq2) : (a - b).c0 = a.c0 - b.c0 := rfl

@[simp] theorem sub_c1 (a b : Fq2) : (a - b).c1 = a.c1 - b.c1 := rfl

@[simp] theorem neg_c0 (a : Fq2) : (-a).c0 = -a.c0 := rfl

@[simp] theorem neg_c1 (a : Fq2) : (-a).c1 = -a.c1 := rfl

@[simp] theorem mul_c0 (a b : Fq2) : (a * b).c0 = a.c0 * b.c0 - a.c1 * b.c1 := rfl

@[simp] theorem mul_c1 (a b : Fq2) : (a * b).c1 = a.c0 * b.c1 + a.c1 * b.c0 := rfl

@[ext] theorem ext2 {a b : Fq2} (h0 : a.c0 = b.c0) (h1 : a.c1 = b.c1) : a = b := by
  cases a; cases b; simp_all

end Fq2

/-- Sextic-extension element c0 + c1 v + c2 v ^ 2 over Fq2 with
v ^ 3 = xi = 1 + u (the ark Fq6 value type). -/
structure Fq6 where
  c0 : Fq2
  c1 : Fq2
  c2 : Fq2
deriving DecidableEq

namespace Fq6

def zero : Fq6 := ⟨0, 0, 0⟩

def one : Fq6 := ⟨1, 0, 0⟩

def add (a b : Fq6) : Fq6 := ⟨a.c0 + b.c0, a.c1 + b.c1, a.c2 + b.c2⟩

def neg (a : Fq6) : Fq6 := ⟨-a.c0, -a.c1, -a.c2⟩

/-- Schoolbook product of two degree-2 polynomials over Fq2 reduced modulo
v ^ 3 = xi; this is the multiplication the ark Fq6 type implements. -/
def mul (a b : Fq6) : Fq6 :=
  ⟨a.c0 * b.c0 + (a.c1 * b.c2 + a.c2 * b.c1).mul_by_nonresidue,
   a.c0 * b.c1 + a.c1 * b.c0 + (a.c2 * b.c2).mul_by_nonresidue,
   a.c0 * b.c2 + a.c1 * b.c1 + a.c2 * b.c0⟩

instance : Zero Fq6 := ⟨zero⟩

instance : One Fq6 := ⟨one⟩

instance : Add Fq6 := ⟨add⟩

instance : Neg Fq6 := ⟨neg⟩

instance : Mul Fq6 := ⟨mul⟩

/-- Multiplication by the sextic generator v:
(c0, c1, c2) goes to (xi * c2, c0, c1). -/
def mul_by_v (a : Fq6) : Fq6 := ⟨a.c2.mul_by_nonresidue, a.c0, a.c1⟩

@[ext] theorem ext6 {a b : Fq6} (h0 : a.c0 = b.c0) (h1 : a.c1 = b.c1)
    (h2 : a.c2 = b.c2) : a = b := by
  cases a; cases b; simp_all

end Fq6

/-- Duodecimal-extension element c0 + c1 w over Fq6 with w ^ 2 = v
(the ark Fq12 value type: the Miller loop accumulator). -/
structure Fq12 where
  c0 : Fq6
  c1 : Fq6
deriving DecidableEq

namespace Fq12

def one : Fq12 := ⟨1, 0⟩

/-- Product in Fq6[w]/(w ^ 2 - v). -/
def mul (a b : Fq12) : Fq12 :=
  ⟨a.c0 * b.c0 + (a.c1 * b.c1).mul_by_v, a.c0 * b.c1 + a.c1 * b.c0⟩

instance : One Fq12 := ⟨one⟩

instance : Mul Fq12 := ⟨mul⟩

/-- Squaring of the accumulator; ark's square_in_place computes x * x. -/
def square (a : Fq12) : Fq12 := a * a

/-- Conjugation over Fq6: c0 + c1 w goes to c0 - c1 w (ark's
conjugate_in_place, the coefficient-wise sign flip on the odd sextic
component). -/
def conjugate (a : Fq12) : Fq12 := ⟨a.c0, a.c1.neg⟩

/-- Sparse multiplication by an element whose only non-zero Fq2 coefficients
sit at positions 0, 1 and 4 of the duodecimal tower (ark's mul_by_014):
the operand is (d0 + d1 v + 0 v ^ 2) + (0 + d4 v + 0 v ^ 2) w. -/
def mul_by_014 (f : Fq12) (d0 d1 d4 : Fq2) : Fq12 :=
  f * ⟨⟨d0, d1, 0⟩, ⟨0, d4, 0⟩⟩

end Fq12

/-! Curve points and the native Miller loop (src/native/miller_loop.rs). -/

/-- Affine G1 point: base-field coordinates plus a point-at-infinity flag
(the ark G1Affine value type). -/
structure G1Affine where
  x : Fq
  y : Fq
  infinity : Bool
deriving DecidableEq

/-- Coordinate accessor, None exactly when the point is at infinity
(ark's AffineRepr::xy). -/
def G1Affine.xy (P : G1Affine) : Option (Fq × Fq) :=
  if P.infinity then none else some (P.x, P.y)

def G1Affine.is_zero (P : G1Affine) : Bool := P.infinity

/-- Affine G2 point over the quadratic extension. -/
structure G2Affine where
  x : Fq2
  y : Fq2
  infinity : Bool
deriving DecidableEq

def G2Affine.xy (Q : G2Affine) : Option (Fq2 × Fq2) :=
  if Q.infinity then none else some (Q.x, Q.y)

/-- Line-evaluation coefficient triple (type EllCoeff = (Fq2, Fq2, Fq2)). -/
abbrev EllCoeff : Type := Fq2 × Fq2 × Fq2

/-- Prepared G1 point: a newtype wrapper around the affine point
(struct G1Prepared(pub G1Affine)). -/
structure G1Prepared where
  point : G1Affine
deriving DecidableEq

/-- Prepared G2 point: the emitted line-coefficient sequence plus the
infinity flag (struct G2Prepared). -/
structure G2Prepared where
  ell_coeffs : List EllCoeff
  infinity : Bool
deriving DecidableEq

def G2Prepared.is_zero (q : G2Prepared) : Bool := q.infinity

/-- Projective G2 accumulator used during preparation (struct G2Projective). -/
structure G2Projective where
  x : Fq2
  y : Fq2
  z : Fq2
deriving DecidableEq

/-- Coefficient b of the G2 curve equation, the external ark constant
g2::Config::COEFF_B = 4 (1 + u). -/
def coeff_b : Fq2 := ⟨4, 4⟩

/-- Inverse of two in the base field: Fq::one().double().inverse().unwrap(). -/
def two_inv : Fq := (2 : Fq)⁻¹

/-- Doubling step of G2 preparation (G2Projective::double_in_place):
updates the projective accumulator and returns the emitted line
coefficient triple. -/
def G2Projective.double_in_place (r : G2Projective) (ti : Fq) :
    G2Projective × EllCoeff :=
  let a := r.x * r.y
  let a := a.mul_assign_by_fp ti
  let b := r.y.square
  let c := r.z.square
  let e := coeff_b * (c.double + c)
  let f := e.double + e
  let g := (b + f).mul_assign_by_fp ti
  let h := (r.y + r.z).square - (b + c)
  let i := e - b
  let j := r.x.square
  let e_square := e.square
  ({ x := a * (b - f),
     y := g.square - (e_square.double + e_square),
     z := b * h },
   (i, j.double + j, -h))

/-- Mixed-addition step of G2 preparation (G2Projective::add_in_place)
against the original affine point with coordinates (qx, qy); the source
reads them as q.xy().unwrap(), and is only invoked from the non-identity
branch of preparation where that unwrap yields exactly these coordinates. -/
def G2Projective.add_in_place (r : G2Projective) (qx qy : Fq2) :
    G2Projective × EllCoeff :=
  let theta := r.y - qy * r.z
  let lambda := r.x - qx * r.z
  let c := theta.square
  let d := lambda.square
  let e := lambda * d
  let f := r.z * c
  let g := r.x * d
  let h := e + f - g.double
  let j := theta * qx - lambda * qy
  ({ x := lambda * h,
     y := theta * (g - h) - e * r.y,
     z := r.z * e },
   (j, -theta, lambda))

/-- Emission loop of G2 preparation: one doubling step per bit, one extra
mixed-addition step per set bit, coefficients in processing order. -/
def prepareLoop (qx qy : Fq2) : List Bool → G2Projective → List EllCoeff
  | [], _ => []
  | i :: bits, r =>
      let rc := r.double_in_place two_inv
      if i then
        let rc2 := rc.1.add_in_place qx qy
        rc.2 :: rc2.2 :: prepareLoop qx qy bits rc2.1
      else
        rc.2 :: prepareLoop qx qy bits rc.1

/-- G2 preparation (impl From of G2Affine for G2Prepared): the identity point
short-circuits to an empty coefficient sequence with the infinity flag set;
otherwise the projective accumulator starts at (x, y, 1) and the bit pattern
BitIteratorBE::new([BLS_X]).skip(1) is iterated. -/
def G2Prepared.fromAffine (q : G2Affine) : G2Prepared :=
  match q.xy with
  | none => { ell_coeffs := [], infinity := true }
  | some (x, y) =>
      { ell_coeffs := prepareLoop x y prepareBits { x := x, y := y, z := 1 },
        infinity := false }

/-- Line evaluation (fn ell): scales the triple's second and third
coefficients by the G1 point's x and y coordinates and folds the sparse
element into the accumulator; None models the panic of p.xy().unwrap()
on a point at infinity. -/
def ell (f : Fq12) (g2_coeffs : EllCoeff) (P : G1Affine) : Option Fq12 :=
  match P.xy with
  | none => none
  | some (px, py) =>
      let c0 := g2_coeffs.1
      let c2 := g2_coeffs.2.2.mul_assign_by_fp py
      let c1 := g2_coeffs.2.1.mul_assign_by_fp px
      some (f.mul_by_014 c0 c1 c2)

/-- One pass over the pairs of a batch: pop the next coefficient triple of
every pair and fold it into the accumulator; None models the panic of
coeffs.next().unwrap() on an exhausted coefficient sequence. -/
def ellStep (f : Fq12) :
    List (G1Prepared × List EllCoeff) →
    Option (Fq12 × List (G1Prepared × List EllCoeff))
  | [] => some (f, [])
  | (P, cs) :: rest =>
      match cs with
      | [] => none
      | c :: cs' => do
          let f' ← ell f c P.point
          let fr ← ellStep f' rest
          some (fr.1, (P, cs') :: fr.2)

/-- Bit iteration of one batch of the native Miller loop: square the
accumulator, fold one triple per pair, and fold a second triple per pair
when the bit is set. -/
def chunkLoop : List Bool → Fq12 → List (G1Prepared × List EllCoeff) →
    Option (Fq12 × List (G1Prepared × List EllCoeff))
  | [], f, pairs => some (f, pairs)
  | i :: bits, f, pairs => do
      let f := f.square
      let fp ← ellStep f pairs
      if i then
        let fp2 ← ellStep fp.1 fp.2
        chunkLoop bits fp2.1 fp2.2
      else
        chunkLoop bits fp.1 fp.2

/-- Evaluation of one batch, starting from the multiplicative identity. -/
def processChunk (pairs : List (G1Prepared × List EllCoeff)) : Option Fq12 := do
  let fr ← chunkLoop loopBits Fq12.one pairs
  some fr.1

/-- Fixed-size batching of the surviving pairs (cfg_chunks_mut!(pairs, 4)). -/
def chunks4 {α : Type} : List α → List (List α)
  | [] => []
  | a :: b :: c :: d :: rest => [a, b, c, d] :: chunks4 rest
  | l => [l]

/-- Identity filtering of the zipped pair list: pairs where either side is
the point at infinity are dropped before evaluation. -/
def filterPairs (ab : List (G1Prepared × G2Prepared)) :
    List (G1Prepared × List EllCoeff) :=
  ab.filterMap fun pq =>
    if !pq.1.point.is_zero && !pq.2.is_zero
    then some (pq.1, pq.2.ell_coeffs) else none

/-- Native multi-Miller-loop (fn multi_miller_loop_native): None models the
panic of itertools zip_eq on mismatched lengths and the coefficient-pop
panics; otherwise the surviving pairs are batched by four, each batch is
evaluated over the loop bit schedule, the batch results are combined by
field multiplication, and the combined result is conjugated because the
loop parameter is negative. -/
def multi_miller_loop_native (a : List G1Prepared) (b : List G2Prepared) :
    Option Fq12 :=
  if a.length = b.length then do
    let pairs := filterPairs (a.zip b)
    let fs ← (chunks4 pairs).mapM processChunk
    let f := fs.foldl Fq12.mul Fq12.one
    some (if BLS_X_IS_NEGATIVE then f.conjugate else f)
  else none

/-! Circuit-form Miller loop (src/miller_loop.rs), embedded by its
witness-filling denotation.  The circuit target types for the tower fields
and G2 preparation (src/fields/fq12_target.rs, src/curves/g2.rs) are not
under src/, so their operations are modelled from the spec: by the tower
equivalence contract (spec sections 1 and 8) every circuit-form field
operation evaluated via witness filling equals the native operation, so a
target denotes the field value its wires carry. -/

/-- Denotation of a G1AffineTarget (src/curves/g1.rs): two base-field wires
plus a construction-time infinity flag. -/
abbrev G1AffineTarget : Type := G1Affine

/-- Denotation of G1PreparedTarget (src/curves/g1.rs). -/
abbrev G1PreparedTarget : Type := G1Prepared

/-- Modelled from the spec (src/curves/g2.rs is not under src/): a
G2PreparedTarget denotes its coefficient-triple sequence plus infinity
flag, exactly as the native prepared point. -/
abbrev G2PreparedTarget : Type := G2Prepared

/-- Modelled from the spec (src/fields/fq12_target.rs is not under src/): a
Fq12Target denotes the duodecimal field value its wires carry under witness
filling. -/
abbrev Fq12Target : Type := Fq12

/-- Modelled from the spec (src/fields/fq12_target.rs is not under src/):
Fq12Target::multiply_elements combines the per-batch accumulators by field
multiplication (spec section 4.3); an empty combination denotes the
multiplicative identity, matching the identity-filtering contract of spec
section 8. -/
def Fq12Target.multiply_elements (l : List Fq12Target) : Fq12Target :=
  l.foldl Fq12.mul Fq12.one

/-- Circuit-form line evaluation (fn ell_target), denotationally: the same
scaling and sparse multiplication as the native ell. -/
def ell_target (f : Fq12Target) (g2_coeffs : EllCoeff) (P : G1AffineTarget) :
    Option Fq12Target :=
  match P.xy with
  | none => none
  | some (px, py) =>
      let c0 := g2_coeffs.1
      let c2 := g2_coeffs.2.2.mul_assign_by_fp py
      let c1 := g2_coeffs.2.1.mul_assign_by_fp px
      some (f.mul_by_014 c0 c1 c2)

/-- One pass over the pairs of a batch in the circuit-form loop. -/
def ellStepTarget (f : Fq12Target) :
    List (G1PreparedTarget × List EllCoeff) →
    Option (Fq12Target × List (G1PreparedTarget × List EllCoeff))
  | [] => some (f, [])
  | (P, cs) :: rest =>
      match cs with
      | [] => none
      | c :: cs' => do
          let f' ← ell_target f c P.point
          let fr ← ellStepTarget f' rest
          some (fr.1, (P, cs') :: fr.2)

/-- Bit iteration of one batch of the circuit-form loop; the source squares
the accumulator as f.mul(builder, &f). -/
def chunkLoopTarget : List Bool → Fq12Target →
    List (G1PreparedTarget × List EllCoeff) →
    Option (Fq12Target × List (G1PreparedTarget × List EllCoeff))
  | [], f, pairs => some (f, pairs)
  | i :: bits, f, pairs => do
      let f := Fq12.mul f f
      let fp ← ellStepTarget f pairs
      if i then
        let fp2 ← ellStepTarget fp.1 fp.2
        chunkLoopTarget bits fp2.1 fp2.2
      else
        chunkLoopTarget bits fp.1 fp.2

/-- Evaluation of one batch in the circuit form, starting from the constant
Fq12Target carrying one. -/
def processChunkTarget (pairs : List (G1PreparedTarget × List EllCoeff)) :
    Option Fq12Target := do
  let fr ← chunkLoopTarget loopBits Fq12.one pairs
  some fr.1

/-- Circuit-form multi-Miller-loop (fn multi_miller_loop), denotationally:
identical zip_eq length guard, identity filtering, batching by four, per-bit
schedule, cross-batch combination by multiply_elements, and final
conjugation for the negative loop parameter. -/
def multi_miller_loop (a : List G1PreparedTarget) (b : List G2PreparedTarget) :
    Option Fq12Target :=
  if a.length = b.length then do
    let pairs := filterPairs (a.zip b)
    let fs ← (chunks4 pairs).mapM processChunkTarget
    let f := Fq12Target.multiply_elements fs
    some (if BLS_X_IS_NEGATIVE then f.conjugate else f)
  else none

/-! Equivalence of the circuit-form and native-form Miller loops. -/

theorem Fq12.mul_eq (a b : Fq12) : Fq12.mul a b = a * b := rfl

theorem ell_target_eq_ell : @ell_target = @ell := rfl

theorem ellStepTarget_eq (f : Fq12) (ps : List (G1Prepared × List EllCoeff)) :
    ellStepTarget f ps = ellStep f ps := by
  induction ps generalizing f with
  | nil => rfl
  | cons hd tl ih =>
      obtain ⟨P, cs⟩ := hd
      cases cs with
      | nil => rfl
      | cons c cs' => simp [ellStep, ellStepTarget, ell_target_eq_ell, ih]

theorem chunkLoopTarget_eq (bits : List Bool) (f : Fq12)
    (ps : List (G1Prepared × List EllCoeff)) :
    chunkLoopTarget bits f ps = chunkLoop bits f ps := by
  induction bits generalizing f ps with
  | nil => rfl
  | cons i bits ih =>
      simp [chunkLoop, chunkLoopTarget, ellStepTarget_eq, Fq12.square,
        Fq12.mul_eq, ih]

theorem processChunkTarget_eq : @processChunkTarget = @processChunk := by
  funext ps
  simp [processChunkTarget, processChunk, chunkLoopTarget_eq]

/-- C1: for every identical pair of input sequences of prepared G1 and
prepared G2 points, the circuit-form multi_miller_loop evaluated via witness
filling and the native-form multi_miller_loop_native produce bit-identical
Fq12 results (including agreement on which inputs make both fail). -/
theorem circuit_and_native_miller_loop_agree
    (a : List G1Prepared) (b : List G2Prepared) :
    multi_miller_loop a b = multi_miller_loop_native a b := by
  simp [multi_miller_loop, multi_miller_loop_native, processChunkTarget_eq,
    Fq12Target.multiply_elements]

/-! Length-mismatch failure. -/

/-- C6: when the prepared-G1 and prepared-G2 sequences have different
lengths, both the native and the circuit form of the Miller loop fail with
the length-mismatch condition (the zip_eq panic, modelled as None) instead
of silently truncating. -/
theorem length_mismatch_fails (a : List G1Prepared) (b : List G2Prepared)
    (h : a.length ≠ b.length) :
    multi_miller_loop_native a b = none ∧ multi_miller_loop a b = none := by
  constructor <;> simp [multi_miller_loop_native, multi_miller_loop, h]

/-- Concrete instance of C6 at a one-element G1 sequence and an empty G2
sequence. -/
theorem length_mismatch_fails_witness :
    multi_miller_loop_native [⟨⟨0, 0, false⟩⟩] [] = none ∧
      multi_miller_loop [⟨⟨0, 0, false⟩⟩] [] = none :=
  length_mismatch_fails [⟨⟨0, 0, false⟩⟩] [] (by decide)

/-! Identity filtering. -/

/-- C7: a pair containing a point at infinity on either side contributes the
multiplicative identity factor: the native Miller loop over an equal-length
pair list containing such a pair equals the loop over the list with that
pair removed. -/
theorem identity_pair_removal
    (a1 a2 : List G1Prepared) (b1 b2 : List G2Prepared)
    (P : G1Prepared) (Q : G2Prepared)
    (h1 : a1.length = b1.length) (h2 : a2.length = b2.length)
    (hid : P.point.infinity = true ∨ Q.infinity = true) :
    multi_miller_loop_native (a1 ++ P :: a2) (b1 ++ Q :: b2) =
      multi_miller_loop_native (a1 ++ a2) (b1 ++ b2) := by
  have hz : (a1 ++ P :: a2).zip (b1 ++ Q :: b2) =
      a1.zip b1 ++ (P, Q) :: a2.zip b2 := by
    rw [List.zip_append h1]; rfl
  have hz2 : (a1 ++ a2).zip (b1 ++ b2) = a1.zip b1 ++ a2.zip b2 :=
    List.zip_append h1
  have hfilter : filterPairs ((a1 ++ P :: a2).zip (b1 ++ Q :: b2)) =
      filterPairs ((a1 ++ a2).zip (b1 ++ b2)) := by
    rw [hz, hz2]
    simp only [filterPairs, List.filterMap_append, List.filterMap_cons]
    rcases hid with h | h <;>
      simp [G1Affine.is_zero, G2Prepared.is_zero, h]
  simp [multi_miller_loop_native, hfilter, h1, h2]

/-- Concrete instance of C7: a single pair whose G2 side is the prepared
point at infinity contributes nothing. -/
theorem identity_pair_removal_witness :
    multi_miller_loop_native [⟨⟨1, 2, false⟩⟩] [⟨[], true⟩] =
      multi_miller_loop_native [] [] :=
  identity_pair_removal [] [] [] [] ⟨⟨1, 2, false⟩⟩ ⟨[], true⟩ rfl rfl
    (Or.inr rfl)

/-! Empty and fully filtered inputs. -/

/-- C10: when the input sequences are empty or every pair is dropped by the
identity filter, the native Miller loop returns the multiplicative identity
of the duodecimal extension (the conjugate of the empty batch product). -/
theorem all_pairs_filtered_yields_one
    (a : List G1Prepared) (b : List G2Prepared)
    (hlen : a.length = b.length)
    (hall : ∀ pq ∈ a.zip b,
      pq.1.point.infinity = true ∨ pq.2.infinity = true) :
    multi_miller_loop_native a b = some Fq12.one := by
  have hfilter : filterPairs (a.zip b) = [] := by
    simp only [filterPairs, List.filterMap_eq_nil_iff]
    intro pq hpq
    rcases hall pq hpq with h | h <;>
      simp [G1Affine.is_zero, G2Prepared.is_zero, h]
  have hconj : Fq12.conjugate Fq12.one = Fq12.one := by decide
  simp only [multi_miller_loop_native, hlen, hfilter, if_true, chunks4]
  exact congrArg some hconj

/-- Concrete instance of C10: one pair whose G1 side is the point at
infinity evaluates to the multiplicative identity. -/
theorem all_pairs_filtered_yields_one_witness :
    multi_miller_loop_native [⟨⟨0, 0, true⟩⟩] [⟨[], false⟩] =
      some Fq12.one :=
  all_pairs_filtered_yields_one [⟨⟨0, 0, true⟩⟩] [⟨[], false⟩] rfl
    (by intro pq hpq; simp at hpq; simp [hpq])

/-! Structure of the G2 preparation schedule (claim C8). -/

/-- Specification-level single bit step of preparation: one doubling-step
triple, followed by one mixed-addition triple against the original affine
point exactly when the bit is set. -/
def stepEmit (qx qy : Fq2) (r : G2Projective) (i : Bool) :
    G2Projective × List EllCoeff :=
  let rc := r.double_in_place two_inv
  if i then
    let rc2 := rc.1.add_in_place qx qy
    (rc2.1, [rc.2, rc2.2])
  else
    (rc.1, [rc.2])

/-- Specification-level emission schedule: the per-bit groups of emitted
triples, in bit-processing order. -/
def emitSchedule (qx qy : Fq2) : List Bool → G2Projective → List (List EllCoeff)
  | [], _ => []
  | i :: bits, r =>
      (stepEmit qx qy r i).2 :: emitSchedule qx qy bits (stepEmit qx qy r i).1

theorem prepareLoop_eq_emitSchedule (qx qy : Fq2) (bits : List Bool)
    (r : G2Projective) :
    prepareLoop qx qy bits r = (emitSchedule qx qy bits r).flatten := by
  induction bits generalizing r with
  | nil => rfl
  | cons i bits ih => cases i <;> simp [prepareLoop, emitSchedule, stepEmit, ih]

theorem emitSchedule_group_sizes (qx qy : Fq2) (bits : List Bool)
    (r : G2Projective) :
    (emitSchedule qx qy bits r).map List.length =
      bits.map (fun i => if i then 2 else 1) := by
  induction bits generalizing r with
  | nil => rfl
  | cons i bits ih => cases i <;> simp [emitSchedule, stepEmit, ih]

theorem prepareLoop_length (qx qy : Fq2) (bits : List Bool) (r : G2Projective) :
    (prepareLoop qx qy bits r).length = bits.length + bits.count true := by
  induction bits generalizing r with
  | nil => rfl
  | cons i bits ih =>
      cases i <;> simp [prepareLoop, ih, List.count_cons] <;> omega

theorem prepareBits_count : prepareBits.length + prepareBits.count true = 68 := by
  decide

/-- C8: for a non-identity affine G2 point, preparation iterates the
big-endian bit pattern of the loop parameter with the leading bit skipped,
emitting exactly one doubling-step triple per bit plus one mixed-addition
triple per set bit, in bit-processing order (so 63 + 5 = 68 triples for the
BLS12-381 parameter); for the identity point it produces the empty
coefficient sequence with the infinity flag set. -/
theorem g2_preparation_schedule (q : G2Affine) :
    (q.infinity = true →
      G2Prepared.fromAffine q = ⟨[], true⟩) ∧
    (q.infinity = false →
      G2Prepared.fromAffine q =
        ⟨(emitSchedule q.x q.y prepareBits ⟨q.x, q.y, 1⟩).flatten, false⟩ ∧
      (emitSchedule q.x q.y prepareBits ⟨q.x, q.y, 1⟩).map List.length =
        prepareBits.map (fun i => if i then 2 else 1) ∧
      (G2Prepared.fromAffine q).ell_coeffs.length = 68) := by
  constructor
  · intro h
    simp [G2Prepared.fromAffine, G2Affine.xy, h]
  · intro h
    have hxy : q.xy = some (q.x, q.y) := by simp [G2Affine.xy, h]
    refine ⟨?_, emitSchedule_group_sizes q.x q.y prepareBits _, ?_⟩
    · simp [G2Prepared.fromAffine, hxy, prepareLoop_eq_emitSchedule]
    · simp [G2Prepared.fromAffine, hxy, prepareLoop_length, prepareBits_count]

/-- Concrete instances of C8: the identity short-circuit and the emitted
coefficient count at a sample non-identity point. -/
theorem g2_preparation_schedule_witness :
    G2Prepared.fromAffine ⟨0, 0, true⟩ = ⟨[], true⟩ ∧
      (G2Prepared.fromAffine ⟨⟨1, 0⟩, ⟨2, 0⟩, false⟩).ell_coeffs.length = 68 :=
  ⟨(g2_preparation_schedule ⟨0, 0, true⟩).1 rfl,
   ((g2_preparation_schedule ⟨⟨1, 0⟩, ⟨2, 0⟩, false⟩).2 rfl).2.2⟩

/-! Exact coefficient consumption (claim C9). -/

theorem ellStep_total (f : Fq12) (ps : List (G1Prepared × List EllCoeff))
    (hne : ∀ pr ∈ ps, pr.2 ≠ ([] : List EllCoeff))
    (hP : ∀ pr ∈ ps, pr.1.point.infinity = false) :
    ∃ g, ellStep f ps = some (g, ps.map fun pr => (pr.1, pr.2.tail)) := by
  induction ps generalizing f with
  | nil => exact ⟨f, rfl⟩
  | cons hd tl ih =>
      obtain ⟨P, cs⟩ := hd
      cases cs with
      | nil => exact absurd rfl (hne (P, []) (List.mem_cons_self _ _))
      | cons c cs' =>
          have hinf : P.point.infinity = false :=
            hP (P, c :: cs') (List.mem_cons_self _ _)
          have hxy : P.point.xy = some (P.point.x, P.point.y) := by
            simp [G1Affine.xy, hinf]
          obtain ⟨g, hg⟩ := ih
            (f.mul_by_014 c.1 (c.2.1.mul_assign_by_fp P.point.x)
              (c.2.2.mul_assign_by_fp P.point.y))
            (fun pr h => hne pr (List.mem_cons_of_mem _ h))
            (fun pr h => hP pr (List.mem_cons_of_mem _ h))
          exact ⟨g, by simp [ellStep, ell, hxy, hg]⟩

theorem chunkLoop_total (bits : List Bool) (f : Fq12)
    (ps : List (G1Prepared × List EllCoeff))
    (hlen : ∀ pr ∈ ps, pr.2.length = bits.length + bits.count true)
    (hP : ∀ pr ∈ ps, pr.1.point.infinity = false) :
    ∃ g, chunkLoop bits f ps =
      some (g, ps.map fun pr => (pr.1, ([] : List EllCoeff))) := by
  induction bits generalizing f ps with
  | nil =>
      refine ⟨f, ?_⟩
      have hmap : (ps.map fun pr => (pr.1, ([] : List EllCoeff))) = ps := by
        have h1 : ∀ pr ∈ ps, (fun pr => (pr.1, ([] : List EllCoeff))) pr = id pr := by
          intro pr h
          have h0 := hlen pr h
          simp only [List.length_nil, List.count_nil, Nat.add_zero] at h0
          have h2 : pr.2 = [] := List.length_eq_zero.mp h0
          cases pr
          simp_all
        rw [List.map_congr_left h1, List.map_id]
      rw [hmap]
      rfl
  | cons i bits ih =>
      have hne : ∀ pr ∈ ps, pr.2 ≠ ([] : List EllCoeff) := by
        intro pr h hnil
        have h0 := hlen pr h
        rw [hnil] at h0
        simp [List.count_cons] at h0
        omega
      obtain ⟨g1, hg1⟩ := ellStep_total f.square ps hne hP
      have hP1 : ∀ pr ∈ ps.map (fun pr => (pr.1, pr.2.tail)),
          pr.1.point.infinity = false := by
        intro pr h
        obtain ⟨pr0, h0, rfl⟩ := List.mem_map.mp h
        exact hP pr0 h0
      cases i with
      | false =>
          have hlen1 : ∀ pr ∈ ps.map (fun pr => (pr.1, pr.2.tail)),
              pr.2.length = bits.length + bits.count true := by
            intro pr h
            obtain ⟨pr0, h0, rfl⟩ := List.mem_map.mp h
            have hx := hlen pr0 h0
            simp [List.count_cons] at hx
            simp only [List.length_tail]
            omega
          obtain ⟨g, hg⟩ := ih g1 _ hlen1 hP1
          refine ⟨g, ?_⟩
          simp [chunkLoop, hg1, hg, List.map_map, Function.comp]
      | true =>
          have hne1 : ∀ pr ∈ ps.map (fun pr => (pr.1, pr.2.tail)),
              pr.2 ≠ ([] : List EllCoeff) := by
            intro pr h hnil
            obtain ⟨pr0, h0, rfl⟩ := List.mem_map.mp h
            have hx := hlen pr0 h0
            simp [List.count_cons] at hx
            have h2 : pr0.2.tail = [] := hnil
            have h3 : pr0.2.tail.length = 0 := by rw [h2]; rfl
            rw [List.length_tail] at h3
            omega
          obtain ⟨g2, hg2⟩ := ellStep_total g1 _ hne1 hP1
          have hP2 : ∀ pr ∈ (ps.map (fun pr => (pr.1, pr.2.tail))).map
              (fun pr => (pr.1, pr.2.tail)), pr.1.point.infinity = false := by
            intro pr h
            obtain ⟨pr0, h0, rfl⟩ := List.mem_map.mp h
            exact hP1 pr0 h0
          have hlen2 : ∀ pr ∈ (ps.map (fun pr => (pr.1, pr.2.tail))).map
              (fun pr => (pr.1, pr.2.tail)),
              pr.2.length = bits.length + bits.count true := by
            intro pr h
            obtain ⟨pr0, h0, rfl⟩ := List.mem_map.mp h
            obtain ⟨pr1, h1, rfl⟩ := List.mem_map.mp h0
            have hx := hlen pr1 h1
            simp [List.count_cons] at hx
            simp only [List.length_tail]
            omega
          obtain ⟨g, hg⟩ := ih g2 _ hlen2 hP2
          simp only [List.map_map, Function.comp] at hg hg2
          refine ⟨g, ?_⟩
          simp [chunkLoop, hg1, hg2, hg, List.map_map, Function.comp]

theorem chunks4_flatten {α : Type} : ∀ (l : List α), (chunks4 l).flatten = l
  | [] => rfl
  | [a] => rfl
  | [a, b] => rfl
  | [a, b, c] => rfl
  | a :: b :: c :: d :: rest => by
      simp [chunks4, chunks4_flatten rest]

theorem mapM_option_total {α β : Type} (f : α → Option β) :
    ∀ l : List α, (∀ x ∈ l, ∃ y, f x = some y) → ∃ ys, l.mapM f = some ys
  | [], _ => ⟨[], rfl⟩
  | a :: l, h => by
      obtain ⟨y, hy⟩ := h a (List.mem_cons_self _ _)
      obtain ⟨ys, hys⟩ :=
        mapM_option_total f l (fun x hx => h x (List.mem_cons_of_mem _ hx))
      exact ⟨y :: ys, by rw [List.mapM_cons, hy, hys]; rfl⟩

theorem loopBits_eq_prepareBits : loopBits = prepareBits := by decide

theorem loopBits_count : loopBits.length + loopBits.count true = 68 := by decide

/-- Members of the filtered, prepared pair list have a non-infinity G1 side
and a coefficient sequence of exactly 68 triples. -/
theorem filterPairs_prepared_mem
    (pairs : List (G1Affine × G2Affine)) (pr : G1Prepared × List EllCoeff)
    (h : pr ∈ filterPairs
      ((pairs.map fun pq => G1Prepared.mk pq.1).zip
        (pairs.map fun pq => G2Prepared.fromAffine pq.2))) :
    pr.1.point.infinity = false ∧ pr.2.length = 68 := by
  rw [List.zip_map'] at h
  simp only [filterPairs, List.filterMap_map, List.mem_filterMap,
    Function.comp] at h
  obtain ⟨pq, hmem, hcond⟩ := h
  split at hcond
  · rename_i hz
    rw [Bool.and_eq_true, Bool.not_eq_true', Bool.not_eq_true'] at hz
    obtain ⟨h1, h2⟩ := hz
    obtain rfl := Option.some.inj hcond
    refine ⟨h1, ?_⟩
    have hq : pq.2.infinity = false := by
      by_contra hq
      rw [Bool.not_eq_false] at hq
      have hfa : G2Prepared.fromAffine pq.2 = ⟨[], true⟩ := by
        simp [G2Prepared.fromAffine, G2Affine.xy, hq]
      rw [hfa] at h2
      exact absurd h2 (by simp [G2Prepared.is_zero])
    have hxy : pq.2.xy = some (pq.2.x, pq.2.y) := by simp [G2Affine.xy, hq]
    show (G2Prepared.fromAffine pq.2).ell_coeffs.length = 68
    simp [G2Prepared.fromAffine, hxy, prepareLoop_length, prepareBits_count]
  · exact absurd hcond (by simp)

/-- C9: over pairs whose G2 sides were produced by preparation on
non-identity points, the loop's per-step coefficient pops never fail and
leave no coefficient over: preparation's bit schedule and the loop's bit
schedule coincide, the whole native Miller loop succeeds, and every batch
drains every coefficient sequence to empty. -/
theorem coefficient_consumption_exact
    (pairs : List (G1Affine × G2Affine))
    (hq : ∀ pq ∈ pairs, pq.2.infinity = false) :
    loopBits = prepareBits ∧
    (∃ out, multi_miller_loop_native (pairs.map fun pq => ⟨pq.1⟩)
      (pairs.map fun pq => G2Prepared.fromAffine pq.2) = some out) ∧
    (∀ chunk ∈ chunks4 (filterPairs
        ((pairs.map fun pq => G1Prepared.mk pq.1).zip
          (pairs.map fun pq => G2Prepared.fromAffine pq.2))),
      ∃ g, chunkLoop loopBits Fq12.one chunk =
        some (g, chunk.map fun pr => (pr.1, ([] : List EllCoeff)))) := by
  have hmem : ∀ chunk ∈ chunks4 (filterPairs
      ((pairs.map fun pq => G1Prepared.mk pq.1).zip
        (pairs.map fun pq => G2Prepared.fromAffine pq.2))),
      ∀ pr ∈ chunk, pr.1.point.infinity = false ∧ pr.2.length = 68 := by
    intro chunk hc pr hpr
    refine filterPairs_prepared_mem pairs pr ?_
    rw [← chunks4_flatten (filterPairs _)]
    exact List.mem_flatten.mpr ⟨chunk, hc, hpr⟩
  have hchunks : ∀ chunk ∈ chunks4 (filterPairs
      ((pairs.map fun pq => G1Prepared.mk pq.1).zip
        (pairs.map fun pq => G2Prepared.fromAffine pq.2))),
      ∃ g, chunkLoop loopBits Fq12.one chunk =
        some (g, chunk.map fun pr => (pr.1, ([] : List EllCoeff))) := by
    intro chunk hc
    refine chunkLoop_total loopBits Fq12.one chunk ?_ ?_
    · intro pr hpr
      rw [(hmem chunk hc pr hpr).2]
      exact loopBits_count.symm
    · exact fun pr hpr => (hmem chunk hc pr hpr).1
  refine ⟨loopBits_eq_prepareBits, ?_, hchunks⟩
  have hsucc : ∀ chunk ∈ chunks4 (filterPairs
      ((pairs.map fun pq => G1Prepared.mk pq.1).zip
        (pairs.map fun pq => G2Prepared.fromAffine pq.2))),
      ∃ y, processChunk chunk = some y := by
    intro chunk hc
    obtain ⟨g, hg⟩ := hchunks chunk hc
    exact ⟨g, by simp [processChunk, hg]⟩
  obtain ⟨ys, hys⟩ := mapM_option_total processChunk _ hsucc
  refine ⟨(ys.foldl Fq12.mul Fq12.one).conjugate, ?_⟩
  have hcond : (pairs.map fun pq => G1Prepared.mk pq.1).length =
      (pairs.map fun pq => G2Prepared.fromAffine pq.2).length := by simp
  simp only [multi_miller_loop_native, if_pos hcond]
  rw [hys]
  rfl

/-- Concrete instance of C9 at a one-pair collection with a non-identity
G2 side. -/
theorem coefficient_consumption_exact_witness :
    loopBits = prepareBits ∧
    (∃ out, multi_miller_loop_native
      ([(⟨1, 2, false⟩, ⟨⟨1, 0⟩, ⟨2, 0⟩, false⟩)].map
        (fun pq : G1Affine × G2Affine => G1Prepared.mk pq.1))
      ([(⟨1, 2, false⟩, ⟨⟨1, 0⟩, ⟨2, 0⟩, false⟩)].map
        (fun pq : G1Affine × G2Affine => G2Prepared.fromAffine pq.2)) =
        some out) ∧
    (∀ chunk ∈ chunks4 (filterPairs
        ((([(⟨1, 2, false⟩, ⟨⟨1, 0⟩, ⟨2, 0⟩, false⟩)].map
          (fun pq : G1Affine × G2Affine => G1Prepared.mk pq.1)).zip
          ([(⟨1, 2, false⟩, ⟨⟨1, 0⟩, ⟨2, 0⟩, false⟩)].map
            (fun pq : G1Affine × G2Affine => G2Prepared.fromAffine pq.2))))),
      ∃ g, chunkLoop loopBits Fq12.one chunk =
        some (g, chunk.map fun pr => (pr.1, ([] : List EllCoeff)))) :=
  coefficient_consumption_exact [(⟨1, 2, false⟩, ⟨⟨1, 0⟩, ⟨2, 0⟩, false⟩)]
    (by intro pq hpq; simp at hpq; simp [hpq])

/-! Reference pairing library (claim C2).  The trusted independent library is
arkworks (ark-ec's bls12 model with ark-bls12-381 parameters): its Miller
loop is embedded below by its own definitions, following ark-ec's
models/bls12/g2.rs (preparation) and models/bls12/mod.rs (loop; BLS12-381 is
an M-type twist, so ell scales coefficients 1 and 2 by the G1 coordinates
and multiplies via mul_by_014, and the negative parameter x triggers the
final cyclotomic inverse, which for a quadratic extension is conjugation). -/

/-- Doubling step of ark-ec's bls12 G2 preparation. -/
def arkDoubleInPlace (r : G2Projective) (ti : Fq) : G2Projective × EllCoeff :=
  let a := (r.x * r.y).mul_assign_by_fp ti
  let b := r.y.square
  let c := r.z.square
  let e := coeff_b * (c.double + c)
  let f := e.double + e
  let g := (b + f).mul_assign_by_fp ti
  let h := (r.y + r.z).square - (b + c)
  let i := e - b
  let j := r.x.square
  let e_square := e.square
  ({ x := a * (b - f),
     y := g.square - (e_square.double + e_square),
     z := b * h },
   (i, j.double + j, -h))

/-- Mixed-addition step of ark-ec's bls12 G2 preparation. -/
def arkAddInPlace (r : G2Projective) (qx qy : Fq2) :
    G2Projective × EllCoeff :=
  let theta := r.y - qy * r.z
  let lambda := r.x - qx * r.z
  let c := theta.square
  let d := lambda.square
  let e := lambda * d
  let f := r.z * c
  let g := r.x * d
  let h := e + f - g.double
  let j := theta * qx - lambda * qy
  ({ x := lambda * h,
     y := theta * (g - h) - e * r.y,
     z := r.z * e },
   (j, -theta, lambda))

/-- Bit iteration of ark-ec's bls12 G2 preparation. -/
def arkPrepareLoop (qx qy : Fq2) : List Bool → G2Projective → List EllCoeff
  | [], _ => []
  | i :: bits, r =>
      let rc := arkDoubleInPlace r two_inv
      if i then
        let rc2 := arkAddInPlace rc.1 qx qy
        rc.2 :: rc2.2 :: arkPrepareLoop qx qy bits rc2.1
      else
        rc.2 :: arkPrepareLoop qx qy bits rc.1

/-- The From conversion of ark-ec's bls12 G2Prepared. -/
def arkG2Prepare (q : G2Affine) : G2Prepared :=
  match q.xy with
  | none => { ell_coeffs := [], infinity := true }
  | some (x, y) =>
      { ell_coeffs := arkPrepareLoop x y prepareBits { x := x, y := y, z := 1 },
        infinity := false }

/-- Line evaluation of ark-ec's bls12 model for an M-type twist. -/
def arkEll (f : Fq12) (coeffs : EllCoeff) (P : G1Affine) : Option Fq12 :=
  match P.xy with
  | none => none
  | some (px, py) =>
      let c0 := coeffs.1
      let c2 := coeffs.2.2.mul_assign_by_fp py
      let c1 := coeffs.2.1.mul_assign_by_fp px
      some (f.mul_by_014 c0 c1 c2)

/-- One coefficient pop per pair in ark-ec's Miller loop. -/
def arkEllStep (f : Fq12) :
    List (G1Prepared × List EllCoeff) →
    Option (Fq12 × List (G1Prepared × List EllCoeff))
  | [] => some (f, [])
  | (P, cs) :: rest =>
      match cs with
      | [] => none
      | c :: cs' => do
          let f' ← arkEll f c P.point
          let fr ← arkEllStep f' rest
          some (fr.1, (P, cs') :: fr.2)

/-- Per-batch bit iteration of ark-ec's Miller loop. -/
def arkChunkLoop : List Bool → Fq12 → List (G1Prepared × List EllCoeff) →
    Option (Fq12 × List (G1Prepared × List EllCoeff))
  | [], f, pairs => some (f, pairs)
  | i :: bits, f, pairs => do
      let f := f.square
      let fp ← arkEllStep f pairs
      if i then
        let fp2 ← arkEllStep fp.1 fp.2
        arkChunkLoop bits fp2.1 fp2.2
      else
        arkChunkLoop bits fp.1 fp.2

/-- Per-batch evaluation of ark-ec's Miller loop. -/
def arkProcessChunk (pairs : List (G1Prepared × List EllCoeff)) :
    Option Fq12 := do
  let fr ← arkChunkLoop loopBits Fq12.one pairs
  some fr.1

/-- Multi-Miller-loop of ark-ec's bls12 model. -/
def arkMultiMillerLoop (a : List G1Prepared) (b : List G2Prepared) :
    Option Fq12 :=
  if a.length = b.length then do
    let pairs := filterPairs (a.zip b)
    let fs ← (chunks4 pairs).mapM arkProcessChunk
    let f := fs.foldl Fq12.mul Fq12.one
    some (if BLS_X_IS_NEGATIVE then f.conjugate else f)
  else none

/-- Pairing::miller_loop of ark on a single (P, Q) pair. -/
def arkMillerLoop (P : G1Affine) (Q : G2Affine) : Option Fq12 :=
  arkMultiMillerLoop [⟨P⟩] [arkG2Prepare Q]

theorem arkPrepareLoop_eq (qx qy : Fq2) (bits : List Bool) (r : G2Projective) :
    arkPrepareLoop qx qy bits r = prepareLoop qx qy bits r := by
  induction bits generalizing r with
  | nil => rfl
  | cons i bits ih =>
      cases i <;>
        simp [arkPrepareLoop, prepareLoop, arkDoubleInPlace,
          G2Projective.double_in_place, arkAddInPlace,
          G2Projective.add_in_place, ih]

theorem arkG2Prepare_eq (q : G2Affine) :
    arkG2Prepare q = G2Prepared.fromAffine q := by
  cases hxy : q.xy with
  | none => simp [arkG2Prepare, G2Prepared.fromAffine, hxy]
  | some xy =>
      simp [arkG2Prepare, G2Prepared.fromAffine, hxy, arkPrepareLoop_eq]

theorem arkEll_eq : @arkEll = @ell := rfl

theorem arkEllStep_eq (f : Fq12) (ps : List (G1Prepared × List EllCoeff)) :
    arkEllStep f ps = ellStep f ps := by
  induction ps generalizing f with
  | nil => rfl
  | cons hd tl ih =>
      obtain ⟨P, cs⟩ := hd
      cases cs with
      | nil => rfl
      | cons c cs' =>
          simp [arkEllStep, ellStep, arkEll_eq, ih]

theorem arkChunkLoop_eq (bits : List Bool) (f : Fq12)
    (ps : List (G1Prepared × List EllCoeff)) :
    arkChunkLoop bits f ps = chunkLoop bits f ps := by
  induction bits generalizing f ps with
  | nil => rfl
  | cons i bits ih => simp [arkChunkLoop, chunkLoop, arkEllStep_eq, ih]

theorem arkProcessChunk_eq : @arkProcessChunk = @processChunk := by
  funext chunk
  simp [arkProcessChunk, processChunk, arkChunkLoop_eq]

theorem arkMultiMillerLoop_eq (a : List G1Prepared) (b : List G2Prepared) :
    arkMultiMillerLoop a b = multi_miller_loop_native a b := by
  unfold arkMultiMillerLoop multi_miller_loop_native
  rw [arkProcessChunk_eq]

/-- C2: for affine points P on G1 and Q on G2, neither the identity, the
native multi_miller_loop_native on the single prepared pair succeeds and
returns exactly the Miller-loop output of the independently embedded
arkworks pairing library on (P, Q) - a value that includes the final
conjugation for the negative BLS parameter and carries no final
exponentiation. -/
theorem native_single_pair_matches_reference (P : G1Affine) (Q : G2Affine)
    (hP : P.infinity = false) (hQ : Q.infinity = false) :
    ∃ v, multi_miller_loop_native [⟨P⟩] [G2Prepared.fromAffine Q] = some v ∧
      arkMillerLoop P Q = some v := by
  have hxy : Q.xy = some (Q.x, Q.y) := by simp [G2Affine.xy, hQ]
  have hfa : G2Prepared.fromAffine Q =
      ⟨prepareLoop Q.x Q.y prepareBits ⟨Q.x, Q.y, 1⟩, false⟩ := by
    simp [G2Prepared.fromAffine, hxy]
  obtain ⟨g, hg⟩ := chunkLoop_total loopBits Fq12.one
    [(⟨P⟩, prepareLoop Q.x Q.y prepareBits ⟨Q.x, Q.y, 1⟩)]
    (by
      intro pr hpr
      simp at hpr
      rw [hpr]
      simp only [prepareLoop_length]
      decide)
    (by intro pr hpr; simp at hpr; rw [hpr]; exact hP)
  have hpc : processChunk
      [(⟨P⟩, prepareLoop Q.x Q.y prepareBits ⟨Q.x, Q.y, 1⟩)] = some g := by
    simp [processChunk, hg]
  have hmain : multi_miller_loop_native [⟨P⟩]
      [⟨prepareLoop Q.x Q.y prepareBits ⟨Q.x, Q.y, 1⟩, false⟩] =
      some (Fq12.mul Fq12.one g).conjugate := by
    have hfilter : filterPairs
        ([(⟨P⟩ : G1Prepared)].zip
          [(⟨prepareLoop Q.x Q.y prepareBits ⟨Q.x, Q.y, 1⟩, false⟩ :
            G2Prepared)]) =
        [(⟨P⟩, prepareLoop Q.x Q.y prepareBits ⟨Q.x, Q.y, 1⟩)] := by
      simp [filterPairs, G1Affine.is_zero, hP, G2Prepared.is_zero]
    simp only [multi_miller_loop_native, List.length_cons, List.length_nil,
      if_pos rfl, hfilter]
    rw [show chunks4 [((⟨P⟩ : G1Prepared),
        prepareLoop Q.x Q.y prepareBits ⟨Q.x, Q.y, 1⟩)] =
      [[(⟨P⟩, prepareLoop Q.x Q.y prepareBits ⟨Q.x, Q.y, 1⟩)]] from rfl]
    rw [List.mapM_cons, List.mapM_nil, hpc]
    rfl
  refine ⟨(Fq12.mul Fq12.one g).conjugate, ?_, ?_⟩
  · rw [hfa]
    exact hmain
  · rw [arkMillerLoop, arkMultiMillerLoop_eq, arkG2Prepare_eq, hfa]
    exact hmain

/-- Concrete instance of C2 at sample non-identity coordinate data. -/
theorem native_single_pair_matches_reference_witness :
    ∃ v, multi_miller_loop_native [⟨⟨1, 2, false⟩⟩]
        [G2Prepared.fromAffine ⟨⟨1, 0⟩, ⟨2, 0⟩, false⟩] = some v ∧
      arkMillerLoop ⟨1, 2, false⟩ ⟨⟨1, 0⟩, ⟨2, 0⟩, false⟩ = some v :=
  native_single_pair_matches_reference ⟨1, 2, false⟩ ⟨⟨1, 0⟩, ⟨2, 0⟩, false⟩
    rfl rfl

/-! Circuit-form sextic arithmetic (src/fields/fq6_target.rs), embedded by
its witness-filling denotation: an FqTarget wire denotes a base-field value,
so the builder operations add/sub/mul/neg denote the field operations.  A
Fq6Target carries six FqTarget coefficients; field ci below denotes
coeffs[i] of the source.  Coefficients 0..2 are the real (first) components
of the three quadratic coefficients and 3..5 the imaginary (second)
components, as fixed by the source's mul_by_nonresidue pairing of
coeffs[i] with coeffs[i + 3]. -/

/-- Denotation of an Fq6Target: the six base-field wire values. -/
structure Fq6Target where
  c0 : Fq
  c1 : Fq
  c2 : Fq
  c3 : Fq
  c4 : Fq
  c5 : Fq
deriving DecidableEq

/-- Modelled from the spec (src/fields/fq2_target.rs is not under src/): an
Fq2Target denotes the quadratic-extension value of its wire pair, and its
mul/add/sub/mul_by_nonresidue denote the Fq2 operations;
Fq2Target::new(vec![x, y]) denotes the pair (x, y). -/
abbrev Fq2Target : Type := Fq2

namespace Fq6Target

@[ext] theorem extT {a b : Fq6Target} (h0 : a.c0 = b.c0) (h1 : a.c1 = b.c1)
    (h2 : a.c2 = b.c2) (h3 : a.c3 = b.c3) (h4 : a.c4 = b.c4)
    (h5 : a.c5 = b.c5) : a = b := by
  cases a; cases b; simp_all

/-- Fq6Target::mul of the source.  The nested i, j loop accumulates, for
k = i + j, the convolution entries a0b0_coeffs[k] = sum of
coeffs[i] * coeffs[j] over i + j = k (low half times low half, written below
in the source's iteration order), and likewise a0b1 (low times high), a1b0
and a1b1; the output folds entries 3 and 4 back onto entries 0 and 1 with
the non-residue 1 + u (including the source's multiplication of the folded
real part by the constant one), and entry 2 receives no folded term. -/
def mul (a b : Fq6Target) : Fq6Target :=
  let a0b0_coeffs : ℕ → Fq := fun k =>
    match k with
    | 0 => a.c0 * b.c0
    | 1 => a.c0 * b.c1 + a.c1 * b.c0
    | 2 => a.c0 * b.c2 + a.c1 * b.c1 + a.c2 * b.c0
    | 3 => a.c1 * b.c2 + a.c2 * b.c1
    | 4 => a.c2 * b.c2
    | _ => 0
  let a0b1_coeffs : ℕ → Fq := fun k =>
    match k with
    | 0 => a.c0 * b.c3
    | 1 => a.c0 * b.c4 + a.c1 * b.c3
    | 2 => a.c0 * b.c5 + a.c1 * b.c4 + a.c2 * b.c3
    | 3 => a.c1 * b.c5 + a.c2 * b.c4
    | 4 => a.c2 * b.c5
    | _ => 0
  let a1b0_coeffs : ℕ → Fq := fun k =>
    match k with
    | 0 => a.c3 * b.c0
    | 1 => a.c3 * b.c1 + a.c4 * b.c0
    | 2 => a.c3 * b.c2 + a.c4 * b.c1 + a.c5 * b.c0
    | 3 => a.c4 * b.c2 + a.c5 * b.c1
    | 4 => a.c5 * b.c2
    | _ => 0
  let a1b1_coeffs : ℕ → Fq := fun k =>
    match k with
    | 0 => a.c3 * b.c3
    | 1 => a.c3 * b.c4 + a.c4 * b.c3
    | 2 => a.c3 * b.c5 + a.c4 * b.c4 + a.c5 * b.c3
    | 3 => a.c4 * b.c5 + a.c5 * b.c4
    | 4 => a.c5 * b.c5
    | _ => 0
  let a0b0_minus_a1b1 : ℕ → Fq := fun k => a0b0_coeffs k - a1b1_coeffs k
  let a0b1_plus_a1b0 : ℕ → Fq := fun k => a0b1_coeffs k + a1b0_coeffs k
  let const_one : Fq := 1
  { c0 := a0b0_minus_a1b1 0 + a0b0_minus_a1b1 3 * const_one +
      -a0b1_plus_a1b0 3,
    c1 := a0b0_minus_a1b1 1 + a0b0_minus_a1b1 4 * const_one +
      -a0b1_plus_a1b0 4,
    c2 := a0b0_minus_a1b1 2,
    c3 := a0b1_plus_a1b0 0 + a0b0_minus_a1b1 3 + a0b1_plus_a1b0 3 * const_one,
    c4 := a0b1_plus_a1b0 1 + a0b0_minus_a1b1 4 + a0b1_plus_a1b0 4 * const_one,
    c5 := a0b1_plus_a1b0 2 }

/-- Fq6Target::mul_by_01 of the source: the Karatsuba-style sparse product
against an operand whose third quadratic coefficient is zero. -/
def mul_by_01 (x : Fq6Target) (c0 c1 : Fq2Target) : Fq6Target :=
  let fq6_c0 : Fq2Target := ⟨x.c0, x.c3⟩
  let fq6_c1 : Fq2Target := ⟨x.c1, x.c4⟩
  let fq6_c2 : Fq2Target := ⟨x.c2, x.c5⟩
  let a_a := fq6_c0 * c0
  let b_b := fq6_c1 * c1
  let t1 := (fq6_c2 * c1).mul_by_nonresidue + a_a
  let t2 := (c0 + c1) * (fq6_c0 + fq6_c1) - a_a - b_b
  let t3 := fq6_c2 * c0 + b_b
  { c0 := t1.c0, c1 := t2.c0, c2 := t3.c0,
    c3 := t1.c1, c4 := t2.c1, c5 := t3.c1 }

/-- Fq6Target::mul_by_1 of the source: the sparse product against an operand
whose only non-zero quadratic coefficient is the middle one. -/
def mul_by_1 (x : Fq6Target) (c1 : Fq2Target) : Fq6Target :=
  let fq6_c0 : Fq2Target := ⟨x.c0, x.c3⟩
  let fq6_c1 : Fq2Target := ⟨x.c1, x.c4⟩
  let fq6_c2 : Fq2Target := ⟨x.c2, x.c5⟩
  let b_b := fq6_c1 * c1
  let t1 := (c1 * (fq6_c1 + fq6_c2) - b_b).mul_by_nonresidue
  let t2 := c1 * (fq6_c0 + fq6_c1) - b_b
  { c0 := t1.c0, c1 := t2.c0, c2 := b_b.c0,
    c3 := t1.c1, c4 := t2.c1, c5 := b_b.c1 }

/-- Interpretation of the six-coefficient encoding as a sextic-extension
value: quadratic coefficient j is the pair (coeffs[j], coeffs[j + 3]). -/
def toFq6 (a : Fq6Target) : Fq6 :=
  ⟨⟨a.c0, a.c3⟩, ⟨a.c1, a.c4⟩, ⟨a.c2, a.c5⟩⟩

/-- Lift of a sparse operand with only the middle quadratic coefficient set
into the general six-coefficient encoding. -/
def embedMid (c1 : Fq2Target) : Fq6Target := ⟨0, c1.c0, 0, 0, c1.c1, 0⟩

/-- Lift of a sparse operand with zero third quadratic coefficient into the
general six-coefficient encoding. -/
def embed01 (c0 c1 : Fq2Target) : Fq6Target :=
  ⟨c0.c0, c1.c0, 0, c0.c1, c1.c1, 0⟩

end Fq6Target

@[simp] theorem Fq6.mulc0 (a b : Fq6) : (a * b).c0 =
    a.c0 * b.c0 + (a.c1 * b.c2 + a.c2 * b.c1).mul_by_nonresidue := rfl

@[simp] theorem Fq6.mulc1 (a b : Fq6) : (a * b).c1 =
    a.c0 * b.c1 + a.c1 * b.c0 + (a.c2 * b.c2).mul_by_nonresidue := rfl

@[simp] theorem Fq6.mulc2 (a b : Fq6) : (a * b).c2 =
    a.c0 * b.c2 + a.c1 * b.c1 + a.c2 * b.c0 := rfl

@[simp] theorem Fq2.mul_by_nonresidue_c0 (a : Fq2) :
    a.mul_by_nonresidue.c0 = a.c0 - a.c1 := rfl

@[simp] theorem Fq2.mul_by_nonresidue_c1 (a : Fq2) :
    a.mul_by_nonresidue.c1 = a.c0 + a.c1 := rfl

theorem Fq6Target.mul_toFq6 (a b : Fq6Target) :
    (a.mul b).toFq6 = a.toFq6 * b.toFq6 := by
  apply Fq6.ext6 <;> apply Fq2.ext2 <;>
    simp only [Fq6Target.mul, Fq6Target.toFq6, Fq6.mulc0, Fq6.mulc1,
      Fq6.mulc2, Fq2.mul_by_nonresidue_c0, Fq2.mul_by_nonresidue_c1,
      Fq2.mul_c0, Fq2.mul_c1, Fq2.add_c0, Fq2.add_c1] <;>
    ring

/-- C3: the circuit-form Fq6Target::mul - the schoolbook cross-product
expansion whose output coefficients 0 and 1 receive a non-residue-folded
term from convolution entries 3 and 4 while coefficient 2 receives none -
computes exactly the reference sextic-extension product of its operands. -/
theorem fq6target_mul_matches_reference (a b : Fq6Target) :
    (a.mul b).toFq6 = a.toFq6 * b.toFq6 :=
  Fq6Target.mul_toFq6 a b

/-- C4: the sparse products agree with the general product on embedded
sparse operands: mul_by_1(x, c1) equals mul(x, embed(c1)) for the operand
with only the middle quadratic coefficient set, and mul_by_01(x, c0, c1)
equals mul against the operand with zero third quadratic coefficient. -/
theorem sparse_mul_matches_general (x : Fq6Target) (c0 c1 : Fq2Target) :
    x.mul_by_1 c1 = x.mul (Fq6Target.embedMid c1) ∧
      x.mul_by_01 c0 c1 = x.mul (Fq6Target.embed01 c0 c1) := by
  constructor <;> ext <;>
    simp only [Fq6Target.mul, Fq6Target.mul_by_1, Fq6Target.mul_by_01,
      Fq6Target.embedMid, Fq6Target.embed01, Fq2.mul_by_nonresidue_c0,
      Fq2.mul_by_nonresidue_c1, Fq2.mul_c0, Fq2.mul_c1, Fq2.add_c0,
      Fq2.add_c1, Fq2.sub_c0, Fq2.sub_c1] <;>
    ring

/-! Native inversion formulas of the external ark library (claim C5). -/

theorem Fq2.mul_by_nonresidue_eq (a : Fq2) :
    a.mul_by_nonresidue = (⟨1, 1⟩ : Fq2) * a := by
  ext <;> simp <;> ring

theorem Fq2.square_eq (a : Fq2) : a.square = a * a := rfl

/-- Inverse of a base-field element as the external ark Fp inverse: defined
(by extended Euclid) exactly on non-zero inputs. -/
def Fq.inverse (a : Fq) : Option Fq := if a = 0 then none else some a⁻¹

/-- Inverse in the quadratic extension as the external ark Fp2 inverse
computes it: scale the conjugate by the inverse of the norm
c0 ^ 2 + c1 ^ 2 (the non-residue of the quadratic tower is -1). -/
def Fq2.inverse (x : Fq2) : Option Fq2 :=
  if x = 0 then none
  else
    let v1 := x.c1 * x.c1
    let v0 := x.c0 * x.c0 + v1
    (Fq.inverse v0).map fun w => ⟨x.c0 * w, -(x.c1 * w)⟩

/-- Inverse in the sextic extension as the external ark Fp6 inverse computes
it: the adjugate triple (s0, s1, s2) scaled by the inverse of the norm
c0 s0 + xi (c2 s1 + c1 s2). -/
def Fq6.inverse (x : Fq6) : Option Fq6 :=
  if x = 0 then none
  else
    let s0 := x.c0 * x.c0 - (x.c1 * x.c2).mul_by_nonresidue
    let s1 := (x.c2 * x.c2).mul_by_nonresidue - x.c0 * x.c1
    let s2 := x.c1 * x.c1 - x.c0 * x.c2
    let n := x.c0 * s0 + (x.c2 * s1 + x.c1 * s2).mul_by_nonresidue
    (n.inverse).map fun t6 => ⟨t6 * s0, t6 * s1, t6 * s2⟩

/-- Modelled from the spec (src/utils/my_fq6.rs is not under src/): the
MyFq6 coefficient encoding used by the generator to read and write the six
wires of an Fq6Target pairs coefficient i with coefficient i + 3 as the
quadratic components, the inverse of Fq6Target.toFq6. -/
def Fq6Target.ofFq6 (x : Fq6) : Fq6Target :=
  ⟨x.c0.c0, x.c1.c0, x.c2.c0, x.c0.c1, x.c1.c1, x.c2.c1⟩

/-- Witness-filling denotation of the generator registered by
Fq6Target::inv (Fq6InverseGenerator::run_once): read the six dependency
wires as a sextic value, invert natively, and write the six coefficients of
the inverse into the output wires; None models the unwrap panic on a
non-invertible input. -/
def Fq6InverseGenerator.run_once (x : Fq6Target) : Option Fq6Target :=
  (x.toFq6.inverse).map Fq6Target.ofFq6

/-- Witness-filling denotation of the Fq6Target::inv circuit constraint
(Self::connect(builder, x.mul(inv), one)): the witness satisfies the
circuit exactly when the product of the input and the claimed inverse wires
equals the constant one. -/
def Fq6Target.inv_constraint_holds (x inv : Fq6Target) : Prop :=
  x.mul inv = Fq6Target.ofFq6 1

/-! Primality of the BLS12-381 base prime, by Lucas certificates over a
fully factored p - 1. -/

/-- Binary exponentiation with explicit fuel, written so that the kernel
can evaluate it by structural recursion. -/
def mpow {M : Type} [Monoid M] : ℕ → M → ℕ → M
  | 0, _, _ => 1
  | fuel + 1, x, e =>
      if e = 0 then 1
      else
        let r := mpow fuel (x * x) (e / 2)
        if e % 2 = 1 then r * x else r

theorem mpow_eq_pow {M : Type} [Monoid M] :
    ∀ (fuel : ℕ) (x : M) (e : ℕ), e < 2 ^ fuel → mpow fuel x e = x ^ e := by
  intro fuel
  induction fuel with
  | zero =>
      intro x e he
      have he0 : e = 0 := by simpa using he
      subst he0
      simp [mpow]
  | succ fuel ih =>
      intro x e he
      by_cases he0 : e = 0
      · subst he0; simp [mpow]
      · have hlt : e / 2 < 2 ^ fuel := by
          rw [Nat.div_lt_iff_lt_mul (by norm_num : (0 : ℕ) < 2)]
          calc e < 2 ^ (fuel + 1) := he
          _ = 2 ^ fuel * 2 := by rw [pow_succ]
        have hx : x ^ e = (x * x) ^ (e / 2) * x ^ (e % 2) := by
          conv_lhs => rw [← Nat.div_add_mod e 2]
          rw [pow_add, pow_mul, pow_two]
        simp only [mpow, he0, if_false]
        rw [ih (x * x) (e / 2) hlt]
        rcases Nat.mod_two_eq_zero_or_one e with hm | hm
        · simp [hm, hx]
        · simp [hm, hx]

theorem pow_eq_one_of_mpow {M : Type} [Monoid M] (fuel : ℕ) (x : M) (e : ℕ)
    (he : e < 2 ^ fuel) (h : mpow fuel x e = 1) : x ^ e = 1 := by
  rw [← mpow_eq_pow fuel x e he]; exact h

theorem pow_ne_one_of_mpow {M : Type} [Monoid M] (fuel : ℕ) (x : M) (e : ℕ)
    (he : e < 2 ^ fuel) (h : mpow fuel x e ≠ 1) : x ^ e ≠ 1 := by
  rw [← mpow_eq_pow fuel x e he]; exact h

/-- A complete factorization into certified primes captures every prime
divisor. -/
theorem prime_divisors_of_factorization :
    ∀ (fs : List (ℕ × ℕ)) (n : ℕ),
      n = (fs.map fun qe => qe.1 ^ qe.2).prod →
      (∀ qe ∈ fs, qe.1.Prime) →
      ∀ q, q.Prime → q ∣ n → q ∈ fs.map Prod.fst := by
  intro fs
  induction fs with
  | nil =>
      intro n hn _ q hq hdvd
      subst hn
      simp only [List.map_nil, List.prod_nil] at hdvd
      exact absurd (Nat.dvd_one.mp hdvd) hq.ne_one
  | cons qe fs ih =>
      intro n hn hprime q hq hdvd
      subst hn
      rw [List.map_cons, List.prod_cons] at hdvd
      rcases (Nat.Prime.dvd_mul hq).mp hdvd with h | h
      · have hq1 : q ∣ qe.1 := hq.dvd_of_dvd_pow h
        have : q = qe.1 :=
          (Nat.prime_dvd_prime_iff_eq hq (hprime qe (List.mem_cons_self _ _))).mp hq1
        rw [List.map_cons, this]
        exact List.mem_cons_self _ _
      · rw [List.map_cons]
        exact List.mem_cons_of_mem _
          (ih _ rfl (fun x hx => hprime x (List.mem_cons_of_mem _ hx)) q hq h)

/-- Lucas primality from a fully factored p - 1 with a fixed witness. -/
theorem lucas_certificate (P : ℕ) (a : ZMod P) (qs : List ℕ)
    (fs : List (ℕ × ℕ))
    (hfs : P - 1 = (fs.map fun qe => qe.1 ^ qe.2).prod)
    (hfsprime : ∀ qe ∈ fs, qe.1.Prime)
    (hqs : fs.map Prod.fst = qs)
    (ha : a ^ (P - 1) = 1)
    (hq : ∀ q ∈ qs, a ^ ((P - 1) / q) ≠ 1) : P.Prime :=
  lucas_primality P a ha fun q hq' hdvd =>
    hq q (hqs ▸ prime_divisors_of_factorization fs (P - 1) hfs hfsprime q hq' hdvd)

set_option maxRecDepth 100000

theorem sprime_5 : Nat.Prime 5 := by norm_num

theorem sprime_7 : Nat.Prime 7 := by norm_num

theorem sprime_11 : Nat.Prime 11 := by norm_num

theorem sprime_13 : Nat.Prime 13 := by norm_num

theorem sprime_17 : Nat.Prime 17 := by norm_num

theorem sprime_19 : Nat.Prime 19 := by norm_num

theorem sprime_23 : Nat.Prime 23 := by norm_num

theorem sprime_31 : Nat.Prime 31 := by norm_num

theorem sprime_43 : Nat.Prime 43 := by norm_num

theorem sprime_151 : Nat.Prime 151 := by norm_num

theorem sprime_409 : Nat.Prime 409 := by norm_num

theorem sprime_8101 : Nat.Prime 8101 := by norm_num

theorem sprime_43591 : Nat.Prime 43591 := by norm_num

theorem sprime_609743 : Nat.Prime 609743 := by norm_num

theorem sprime_1686913 : Nat.Prime 1686913 := by norm_num

theorem sprime_47 : Nat.Prime 47 := by norm_num

theorem sprime_53 : Nat.Prime 53 := by norm_num

theorem sprime_89 : Nat.Prime 89 := by norm_num

theorem sprime_113 : Nat.Prime 113 := by norm_num

theorem sprime_467 : Nat.Prime 467 := by norm_num

theorem sprime_941 : Nat.Prime 941 := by norm_num

theorem sprime_3373 : Nat.Prime 3373 := by norm_num

theorem sprime_7577 : Nat.Prime 7577 := by norm_num

theorem sprime_10177 : Nat.Prime 10177 := by norm_num

theorem sprime_16447 : Nat.Prime 16447 := by norm_num

theorem sprime_421987 : Nat.Prime 421987 := by norm_num

theorem sprime_582767 : Nat.Prime 582767 := by norm_num

theorem sprime_755057 : Nat.Prime 755057 := by norm_num

theorem sprime_859267 : Nat.Prime 859267 := by norm_num

theorem sprime_51376543 : Nat.Prime 51376543 := by
  refine lucas_certificate 51376543 3 [2, 3, 7, 151, 8101]
    [(2, 1), (3, 1), (7, 1), (151, 1), (8101, 1)]
    (by decide) ?_ rfl ?_ ?_
  · intro qe hqe
    simp only [List.mem_cons, List.not_mem_nil, or_false] at hqe
    rcases hqe with rfl | rfl | rfl | rfl | rfl
    exacts [Nat.prime_two,
      Nat.prime_three,
      sprime_7,
      sprime_151,
      sprime_8101]
  · exact pow_eq_one_of_mpow 400 _ _ (by norm_num) (by decide)
  · intro q hqmem
    fin_cases hqmem <;>
      exact pow_ne_one_of_mpow 400 _ _ (by norm_num) (by decide)

theorem sprime_52437899 : Nat.Prime 52437899 := by
  refine lucas_certificate 52437899 2 [2, 43, 609743]
    [(2, 1), (43, 1), (609743, 1)]
    (by decide) ?_ rfl ?_ ?_
  · intro qe hqe
    simp only [List.mem_cons, List.not_mem_nil, or_false] at hqe
    rcases hqe with rfl | rfl | rfl
    exacts [Nat.prime_two,
      sprime_43,
      sprime_609743]
  · exact pow_eq_one_of_mpow 400 _ _ (by norm_num) (by decide)
  · intro q hqmem
    fin_cases hqmem <;>
      exact pow_ne_one_of_mpow 400 _ _ (by norm_num) (by decide)

theorem sprime_475709467 : Nat.Prime 475709467 := by
  refine lucas_certificate 475709467 2 [2, 3, 47, 1686913]
    [(2, 1), (3, 1), (47, 1), (1686913, 1)]
    (by decide) ?_ rfl ?_ ?_
  · intro qe hqe
    simp only [List.mem_cons, List.not_mem_nil, or_false] at hqe
    rcases hqe with rfl | rfl | rfl | rfl
    exacts [Nat.prime_two,
      Nat.prime_three,
      sprime_47,
      sprime_1686913]
  · exact pow_eq_one_of_mpow 400 _ _ (by norm_num) (by decide)
  · intro q hqmem
    fin_cases hqmem <;>
      exact pow_ne_one_of_mpow 400 _ _ (by norm_num) (by decide)

theorem sprime_927093389 : Nat.Prime 927093389 := by
  refine lucas_certificate 927093389 3 [2, 13, 409, 43591]
    [(2, 2), (13, 1), (409, 1), (43591, 1)]
    (by decide) ?_ rfl ?_ ?_
  · intro qe hqe
    simp only [List.mem_cons, List.not_mem_nil, or_false] at hqe
    rcases hqe with rfl | rfl | rfl | rfl
    exacts [Nat.prime_two,
      sprime_13,
      sprime_409,
      sprime_43591]
  · exact pow_eq_one_of_mpow 400 _ _ (by norm_num) (by decide)
  · intro q hqmem
    fin_cases hqmem <;>
      exact pow_ne_one_of_mpow 400 _ _ (by norm_num) (by decide)

theorem bprime_13090036741 : Nat.Prime 13090036741 := by
  refine lucas_certificate 13090036741 10 [2, 3, 5, 11, 47, 421987]
    [(2, 2), (3, 1), (5, 1), (11, 1), (47, 1), (421987, 1)]
    (by decide) ?_ rfl ?_ ?_
  · intro qe hqe
    simp only [List.mem_cons, List.not_mem_nil, or_false] at hqe
    rcases hqe with rfl | rfl | rfl | rfl | rfl | rfl
    exacts [Nat.prime_two,
      Nat.prime_three,
      sprime_5,
      sprime_11,
      sprime_47,
      sprime_421987]
  · exact pow_eq_one_of_mpow 400 _ _ (by norm_num) (by decide)
  · intro q hqmem
    fin_cases hqmem <;>
      exact pow_ne_one_of_mpow 400 _ _ (by norm_num) (by decide)

theorem bprime_43670061551 : Nat.Prime 43670061551 := by
  refine lucas_certificate 43670061551 7 [2, 5, 17, 51376543]
    [(2, 1), (5, 2), (17, 1), (51376543, 1)]
    (by decide) ?_ rfl ?_ ?_
  · intro qe hqe
    simp only [List.mem_cons, List.not_mem_nil, or_false] at hqe
    rcases hqe with rfl | rfl | rfl | rfl
    exacts [Nat.prime_two,
      sprime_5,
      sprime_17,
      sprime_51376543]
  · exact pow_eq_one_of_mpow 400 _ _ (by norm_num) (by decide)
  · intro q hqmem
    fin_cases hqmem <;>
      exact pow_ne_one_of_mpow 400 _ _ (by norm_num) (by decide)

theorem bprime_9272813673901 : Nat.Prime 9272813673901 := by
  refine lucas_certificate 9272813673901 2 [2, 3, 5, 7, 7577, 582767]
    [(2, 2), (3, 1), (5, 2), (7, 1), (7577, 1), (582767, 1)]
    (by decide) ?_ rfl ?_ ?_
  · intro qe hqe
    simp only [List.mem_cons, List.not_mem_nil, or_false] at hqe
    rcases hqe with rfl | rfl | rfl | rfl | rfl | rfl
    exacts [Nat.prime_two,
      Nat.prime_three,
      sprime_5,
      sprime_7,
      sprime_7577,
      sprime_582767]
  · exact pow_eq_one_of_mpow 400 _ _ (by norm_num) (by decide)
  · intro q hqmem
    fin_cases hqmem <;>
      exact pow_ne_one_of_mpow 400 _ _ (by norm_num) (by decide)

theorem bprime_64881703735777 : Nat.Prime 64881703735777 := by
  refine lucas_certificate 64881703735777 5 [2, 3, 927093389]
    [(2, 5), (3, 7), (927093389, 1)]
    (by decide) ?_ rfl ?_ ?_
  · intro qe hqe
    simp only [List.mem_cons, List.not_mem_nil, or_false] at hqe
    rcases hqe with rfl | rfl | rfl
    exacts [Nat.prime_two,
      Nat.prime_three,
      sprime_927093389]
  · exact pow_eq_one_of_mpow 400 _ _ (by norm_num) (by decide)
  · intro q hqmem
    fin_cases hqmem <;>
      exact pow_ne_one_of_mpow 400 _ _ (by norm_num) (by decide)

theorem bprime_1928745244171409 : Nat.Prime 1928745244171409 := by
  refine lucas_certificate 1928745244171409 3 [2, 13, 9272813673901]
    [(2, 4), (13, 1), (9272813673901, 1)]
    (by decide) ?_ rfl ?_ ?_
  · intro qe hqe
    simp only [List.mem_cons, List.not_mem_nil, or_false] at hqe
    rcases hqe with rfl | rfl | rfl
    exacts [Nat.prime_two,
      sprime_13,
      bprime_9272813673901]
  · exact pow_eq_one_of_mpow 400 _ _ (by norm_num) (by decide)
  · intro q hqmem
    fin_cases hqmem <;>
      exact pow_ne_one_of_mpow 400 _ _ (by norm_num) (by decide)

theorem bprime_7259797099061183477 : Nat.Prime 7259797099061183477 := by
  refine lucas_certificate 7259797099061183477 2 [2, 941, 1928745244171409]
    [(2, 2), (941, 1), (1928745244171409, 1)]
    (by decide) ?_ rfl ?_ ?_
  · intro qe hqe
    simp only [List.mem_cons, List.not_mem_nil, or_false] at hqe
    rcases hqe with rfl | rfl | rfl
    exacts [Nat.prime_two,
      sprime_941,
      bprime_1928745244171409]
  · exact pow_eq_one_of_mpow 400 _ _ (by norm_num) (by decide)
  · intro q hqmem
    fin_cases hqmem <;>
      exact pow_ne_one_of_mpow 400 _ _ (by norm_num) (by decide)

theorem bprime_2584487767265781317813 : Nat.Prime 2584487767265781317813 := by
  refine lucas_certificate 2584487767265781317813 2 [2, 89, 7259797099061183477]
    [(2, 2), (89, 1), (7259797099061183477, 1)]
    (by decide) ?_ rfl ?_ ?_
  · intro qe hqe
    simp only [List.mem_cons, List.not_mem_nil, or_false] at hqe
    rcases hqe with rfl | rfl | rfl
    exacts [Nat.prime_two,
      sprime_89,
      bprime_7259797099061183477]
  · exact pow_eq_one_of_mpow 400 _ _ (by norm_num) (by decide)
  · intro q hqmem
    fin_cases hqmem <;>
      exact pow_ne_one_of_mpow 400 _ _ (by norm_num) (by decide)

theorem bprime_3819663927398918131021 : Nat.Prime 3819663927398918131021 := by
  refine lucas_certificate 3819663927398918131021 6 [2, 3, 5, 19, 113, 755057, 13090036741]
    [(2, 2), (3, 2), (5, 1), (19, 1), (113, 1), (755057, 1), (13090036741, 1)]
    (by decide) ?_ rfl ?_ ?_
  · intro qe hqe
    simp only [List.mem_cons, List.not_mem_nil, or_false] at hqe
    rcases hqe with rfl | rfl | rfl | rfl | rfl | rfl | rfl
    exacts [Nat.prime_two,
      Nat.prime_three,
      sprime_5,
      sprime_19,
      sprime_113,
      sprime_755057,
      bprime_13090036741]
  · exact pow_eq_one_of_mpow 400 _ _ (by norm_num) (by decide)
  · intro q hqmem
    fin_cases hqmem <;>
      exact pow_ne_one_of_mpow 400 _ _ (by norm_num) (by decide)

theorem bprime_92691255082156974996979 : Nat.Prime 92691255082156974996979 := by
  refine lucas_certificate 92691255082156974996979 3 [2, 3, 31, 467, 16447, 64881703735777]
    [(2, 1), (3, 1), (31, 1), (467, 1), (16447, 1), (64881703735777, 1)]
    (by decide) ?_ rfl ?_ ?_
  · intro qe hqe
    simp only [List.mem_cons, List.not_mem_nil, or_false] at hqe
    rcases hqe with rfl | rfl | rfl | rfl | rfl | rfl
    exacts [Nat.prime_two,
      Nat.prime_three,
      sprime_31,
      sprime_467,
      sprime_16447,
      bprime_64881703735777]
  · exact pow_eq_one_of_mpow 400 _ _ (by norm_num) (by decide)
  · intro q hqmem
    fin_cases hqmem <;>
      exact pow_ne_one_of_mpow 400 _ _ (by norm_num) (by decide)

theorem bprime_1125266252156850182658904441386709967 : Nat.Prime 1125266252156850182658904441386709967 := by
  refine lucas_certificate 1125266252156850182658904441386709967 5 [2, 3373, 43670061551, 3819663927398918131021]
    [(2, 1), (3373, 1), (43670061551, 1), (3819663927398918131021, 1)]
    (by decide) ?_ rfl ?_ ?_
  · intro qe hqe
    simp only [List.mem_cons, List.not_mem_nil, or_false] at hqe
    rcases hqe with rfl | rfl | rfl | rfl
    exacts [Nat.prime_two,
      sprime_3373,
      bprime_43670061551,
      bprime_3819663927398918131021]
  · exact pow_eq_one_of_mpow 400 _ _ (by norm_num) (by decide)
  · intro q hqmem
    fin_cases hqmem <;>
      exact pow_ne_one_of_mpow 400 _ _ (by norm_num) (by decide)

theorem bprime_15778400344354997994418419698270088123916926905054652752758194827714659 : Nat.Prime 15778400344354997994418419698270088123916926905054652752758194827714659 := by
  refine lucas_certificate 15778400344354997994418419698270088123916926905054652752758194827714659 2 [2, 3, 53, 475709467, 92691255082156974996979, 1125266252156850182658904441386709967]
    [(2, 1), (3, 1), (53, 1), (475709467, 1), (92691255082156974996979, 1), (1125266252156850182658904441386709967, 1)]
    (by decide) ?_ rfl ?_ ?_
  · intro qe hqe
    simp only [List.mem_cons, List.not_mem_nil, or_false] at hqe
    rcases hqe with rfl | rfl | rfl | rfl | rfl | rfl
    exacts [Nat.prime_two,
      Nat.prime_three,
      sprime_53,
      sprime_475709467,
      bprime_92691255082156974996979,
      bprime_1125266252156850182658904441386709967]
  · exact pow_eq_one_of_mpow 400 _ _ (by norm_num) (by decide)
  · intro q hqmem
    fin_cases hqmem <;>
      exact pow_ne_one_of_mpow 400 _ _ (by norm_num) (by decide)

theorem bprime_4002409555221667393417789825735904156556882819939007885332058136124031650490837864442687629129015664037894272559787 : Nat.Prime 4002409555221667393417789825735904156556882819939007885332058136124031650490837864442687629129015664037894272559787 := by
  refine lucas_certificate 4002409555221667393417789825735904156556882819939007885332058136124031650490837864442687629129015664037894272559787 2 [2, 3, 11, 23, 47, 10177, 859267, 52437899, 2584487767265781317813, 15778400344354997994418419698270088123916926905054652752758194827714659]
    [(2, 1), (3, 2), (11, 1), (23, 1), (47, 1), (10177, 1), (859267, 1), (52437899, 1), (2584487767265781317813, 1), (15778400344354997994418419698270088123916926905054652752758194827714659, 1)]
    (by decide) ?_ rfl ?_ ?_
  · intro qe hqe
    simp only [List.mem_cons, List.not_mem_nil, or_false] at hqe
    rcases hqe with rfl | rfl | rfl | rfl | rfl | rfl | rfl | rfl | rfl | rfl
    exacts [Nat.prime_two,
      Nat.prime_three,
      sprime_11,
      sprime_23,
      sprime_47,
      sprime_10177,
      sprime_859267,
      sprime_52437899,
      bprime_2584487767265781317813,
      bprime_15778400344354997994418419698270088123916926905054652752758194827714659]
  · exact pow_eq_one_of_mpow 400 _ _ (by norm_num) (by decide)
  · intro q hqmem
    fin_cases hqmem <;>
      exact pow_ne_one_of_mpow 400 _ _ (by norm_num) (by decide)

/-- Primality of the BLS12-381 base prime. -/
theorem p_prime : Nat.Prime p := bprime_4002409555221667393417789825735904156556882819939007885332058136124031650490837864442687629129015664037894272559787

instance : Fact (Nat.Prime p) := ⟨p_prime⟩

instance : NeZero p := ⟨p_prime.ne_zero⟩

/-! The quadratic extension is a finite field: the norm c0 ^ 2 + c1 ^ 2
vanishes only at zero because -1 is not a square modulo p (p = 3 mod 4). -/

theorem p_mod_four : p % 4 = 3 := by decide

theorem Fq2.norm_ne_zero (x : Fq2) (h : x ≠ 0) :
    x.c0 * x.c0 + x.c1 * x.c1 ≠ 0 := by
  intro hn
  by_cases hb : x.c1 = 0
  · have h2 : x.c0 * x.c0 = 0 := by
      rw [hb] at hn; simpa using hn
    have h0 : x.c0 = 0 := by
      rcases mul_eq_zero.mp h2 with h' | h' <;> exact h'
    exact h (by ext <;> simp [h0, hb])
  · have h1 : x.c0 * x.c0 = -(x.c1 * x.c1) := eq_neg_of_add_eq_zero_left hn
    have hc1 : x.c1 * x.c1⁻¹ = 1 := mul_inv_cancel₀ hb
    have hsq : (x.c0 * x.c1⁻¹) * (x.c0 * x.c1⁻¹) = -1 := by
      calc (x.c0 * x.c1⁻¹) * (x.c0 * x.c1⁻¹)
          = (x.c0 * x.c0) * (x.c1⁻¹ * x.c1⁻¹) := by ring
        _ = -(x.c1 * x.c1) * (x.c1⁻¹ * x.c1⁻¹) := by rw [h1]
        _ = -((x.c1 * x.c1⁻¹) * (x.c1 * x.c1⁻¹)) := by ring
        _ = -1 := by rw [hc1]; ring
    have hisq : IsSquare (-1 : Fq) := ⟨x.c0 * x.c1⁻¹, hsq.symm⟩
    exact (ZMod.exists_sq_eq_neg_one_iff.mp hisq) p_mod_four

/-- Total inverse function on the quadratic extension (the value ark's Fp2
inverse computes on invertible inputs, and zero at zero). -/
def Fq2.invT (x : Fq2) : Fq2 :=
  ⟨x.c0 * (x.c0 * x.c0 + x.c1 * x.c1)⁻¹,
   -(x.c1 * (x.c0 * x.c0 + x.c1 * x.c1)⁻¹)⟩

theorem Fq2.mul_invT (x : Fq2) (h : x ≠ 0) : x * x.invT = 1 := by
  have hw : (x.c0 * x.c0 + x.c1 * x.c1) *
      (x.c0 * x.c0 + x.c1 * x.c1)⁻¹ = 1 :=
    mul_inv_cancel₀ (Fq2.norm_ne_zero x h)
  ext
  · show x.c0 * (x.invT.c0) - x.c1 * (x.invT.c1) = 1
    simp only [Fq2.invT]
    linear_combination hw
  · show x.c0 * (x.invT.c1) + x.c1 * (x.invT.c0) = 0
    simp only [Fq2.invT]
    ring

instance : Field Fq2 where
  __ := Fq2.instCommRing
  inv := Fq2.invT
  exists_pair_ne := ⟨0, 1, by decide⟩
  mul_inv_cancel := fun a ha => Fq2.mul_invT a ha
  inv_zero := by
    show Fq2.invT 0 = 0
    ext <;> simp [Fq2.invT]
  nnqsmul := _
  nnqsmul_def := fun _ _ => rfl
  qsmul := _
  qsmul_def := fun _ _ => rfl

/-! The sextic non-residue xi = 1 + u is not a cube in the quadratic
extension: the multiplicative norm down to the base field sends it to 2,
and 2 is not a cube modulo p because 2 ^ ((p - 1) / 3) differs from one. -/

/-- Binary exponentiation on the base field with explicit fuel, so that the
kernel evaluates it by structural recursion directly over the modular
arithmetic. -/
def fqpow : ℕ → Fq → ℕ → Fq
  | 0, _, _ => 1
  | fuel + 1, x, e =>
      if e = 0 then 1
      else
        let r := fqpow fuel (x * x) (e / 2)
        if e % 2 = 1 then r * x else r

theorem fqpow_eq_pow :
    ∀ (fuel : ℕ) (x : Fq) (e : ℕ), e < 2 ^ fuel → fqpow fuel x e = x ^ e := by
  intro fuel
  induction fuel with
  | zero =>
      intro x e he
      have he0 : e = 0 := by simpa using he
      subst he0
      simp [fqpow]
  | succ fuel ih =>
      intro x e he
      by_cases he0 : e = 0
      · subst he0; simp [fqpow]
      · have hlt : e / 2 < 2 ^ fuel := by
          rw [Nat.div_lt_iff_lt_mul (by norm_num : (0 : ℕ) < 2)]
          calc e < 2 ^ (fuel + 1) := he
          _ = 2 ^ fuel * 2 := by rw [pow_succ]
        have hx : x ^ e = (x * x) ^ (e / 2) * x ^ (e % 2) := by
          conv_lhs => rw [← Nat.div_add_mod e 2]
          rw [pow_add, pow_mul, pow_two]
        simp only [fqpow, he0, if_false]
        rw [ih (x * x) (e / 2) hlt]
        rcases Nat.mod_two_eq_zero_or_one e with hm | hm
        · simp [hm, hx]
        · simp [hm, hx]

theorem fq_pow_fact (fuel : ℕ) (x y : Fq) (e : ℕ) (he : e < 2 ^ fuel)
    (h : fqpow fuel x e = y) : x ^ e = y := by
  rw [← fqpow_eq_pow fuel x e he]; exact h

/-! Computation of 2 ^ ((p - 1) / 3) in two 190-bit exponent chunks, each
settled by kernel evaluation of fqpow on concrete inputs (keeping every
evaluation chain short enough for the kernel). -/

theorem two_chunk_hi : fqpow 200 2 850160838328383252743679184114253580331517101945019701503 = (1178331708296321770887682443039709729510890128058767537068782708573482759432203411282814502764264077489265561977013 : Fq) := by decide

theorem two_chunk_shift : fqpow 200 (1178331708296321770887682443039709729510890128058767537068782708573482759432203411282814502764264077489265561977013 : Fq) (2 ^ 190) = (10608406531815647879922552049507272606826946131842153807879191839951795825341266754993623760419480931418763582576 : Fq) := by decide

theorem two_chunk_lo : fqpow 200 2 320317836566518433055637792782595630879098756281109832590 = (914269670635261494897329234132701520518982351674590986544719756808114909803236080441869436321068043615744808888206 : Fq) := by decide

theorem two_chunk_glue : (10608406531815647879922552049507272606826946131842153807879191839951795825341266754993623760419480931418763582576 : Fq) * (914269670635261494897329234132701520518982351674590986544719756808114909803236080441869436321068043615744808888206 : Fq) ≠ 1 := by decide

theorem two_pow_third_ne_one : (2 : Fq) ^ ((p - 1) / 3) ≠ 1 := by
  have hhi := fq_pow_fact 200 _ _ _ (by norm_num) two_chunk_hi
  have hsh := fq_pow_fact 200 _ _ _ (by norm_num) two_chunk_shift
  have hlo := fq_pow_fact 200 _ _ _ (by norm_num) two_chunk_lo
  rw [show (p - 1) / 3 = 850160838328383252743679184114253580331517101945019701503 * 2 ^ 190 + 320317836566518433055637792782595630879098756281109832590 from by decide]
  rw [pow_add, pow_mul, hhi, hsh, hlo]
  exact two_chunk_glue

theorem two_not_cube (t : Fq) : t * t * t ≠ (2 : Fq) := by
  intro h
  have ht : t ≠ 0 := by
    rintro rfl
    rw [mul_zero] at h
    exact absurd h (by decide)
  have hpow : t ^ (p - 1) = 1 := ZMod.pow_card_sub_one_eq_one ht
  have h3 : 3 * ((p - 1) / 3) = p - 1 := by decide
  have hq : (2 : Fq) ^ ((p - 1) / 3) = 1 := by
    rw [← h, show t * t * t = t ^ 3 from by ring, ← pow_mul, h3, hpow]
  exact two_pow_third_ne_one hq

/-- The norm of the quadratic extension down to the base field is
multiplicative over the component product formula. -/
theorem Fq2.norm_map_mul (a b : Fq2) :
    (a * b).c0 * (a * b).c0 + (a * b).c1 * (a * b).c1 =
      (a.c0 * a.c0 + a.c1 * a.c1) * (b.c0 * b.c0 + b.c1 * b.c1) := by
  simp only [Fq2.mul_c0, Fq2.mul_c1]; ring

theorem xi_not_cube (t : Fq2) : t * t * t ≠ (⟨1, 1⟩ : Fq2) := by
  intro h
  have h1 : (t * t * t).c0 * (t * t * t).c0 +
      (t * t * t).c1 * (t * t * t).c1 = (2 : Fq) := by
    rw [h]
    show (1 : Fq) * 1 + 1 * 1 = 2
    norm_num
  rw [Fq2.norm_map_mul, Fq2.norm_map_mul] at h1
  exact two_not_cube _ h1

/-! The norm of the cubic extension over Fq2 vanishes only at zero. -/

/-- Adjugate triple of a sextic element, exactly the (s0, s1, s2) of the
ark inversion formula. -/
def Fq6.adj (x : Fq6) : Fq6 :=
  ⟨x.c0 * x.c0 - (x.c1 * x.c2).mul_by_nonresidue,
   (x.c2 * x.c2).mul_by_nonresidue - x.c0 * x.c1,
   x.c1 * x.c1 - x.c0 * x.c2⟩

/-- Norm of a sextic element over the quadratic extension, exactly the
denominator of the ark inversion formula. -/
def Fq6.norm (x : Fq6) : Fq2 :=
  x.c0 * x.adj.c0 + (x.c2 * x.adj.c1 + x.c1 * x.adj.c2).mul_by_nonresidue

theorem Fq6.inverse_eq (x : Fq6) : x.inverse =
    if x = 0 then none
    else (x.norm.inverse).map fun t6 =>
      ⟨t6 * x.adj.c0, t6 * x.adj.c1, t6 * x.adj.c2⟩ := rfl

theorem Fq6.mul_adj (x : Fq6) : x * x.adj = ⟨x.norm, 0, 0⟩ := by
  apply Fq6.ext6 <;>
    simp only [Fq6.adj, Fq6.norm, Fq6.mulc0, Fq6.mulc1, Fq6.mulc2,
      Fq2.mul_by_nonresidue_eq] <;>
    ring

theorem Fq6.adj_adj (x : Fq6) :
    x.adj.adj = ⟨x.norm * x.c0, x.norm * x.c1, x.norm * x.c2⟩ := by
  apply Fq6.ext6 <;>
    simp only [Fq6.adj, Fq6.norm, Fq2.mul_by_nonresidue_eq] <;>
    ring

theorem Fq6.zero_def : (0 : Fq6) = ⟨0, 0, 0⟩ := rfl

theorem cube_of_adj_eq_zero (z : Fq6) (hz : z ≠ 0) (h : z.adj = 0) :
    ∃ t : Fq2, t * t * t = (⟨1, 1⟩ : Fq2) := by
  have h0 : z.c0 * z.c0 - (⟨1, 1⟩ : Fq2) * (z.c1 * z.c2) = 0 := by
    have := congrArg Fq6.c0 h
    simpa [Fq6.adj, Fq6.zero_def, Fq2.mul_by_nonresidue_eq] using this
  have h1 : (⟨1, 1⟩ : Fq2) * (z.c2 * z.c2) - z.c0 * z.c1 = 0 := by
    have := congrArg Fq6.c1 h
    simpa [Fq6.adj, Fq6.zero_def, Fq2.mul_by_nonresidue_eq] using this
  have h2 : z.c1 * z.c1 - z.c0 * z.c2 = 0 := by
    have := congrArg Fq6.c2 h
    simpa [Fq6.adj, Fq6.zero_def, Fq2.mul_by_nonresidue_eq] using this
  have hxi : (⟨1, 1⟩ : Fq2) ≠ 0 := by decide
  by_cases hc0 : z.c0 = 0
  · exfalso
    have hc2 : z.c2 = 0 := by
      have : (⟨1, 1⟩ : Fq2) * (z.c2 * z.c2) = 0 := by
        have := h1
        rw [hc0] at this
        simpa using this
      rcases mul_eq_zero.mp this with h' | h'
      · exact absurd h' hxi
      · rcases mul_eq_zero.mp h' with h'' | h'' <;> exact h''
    have hc1 : z.c1 = 0 := by
      have : z.c1 * z.c1 = 0 := by
        have := h2
        rw [hc0, hc2] at this
        simpa using this
      rcases mul_eq_zero.mp this with h' | h' <;> exact h'
    exact hz (by apply Fq6.ext6 <;> simp [hc0, hc1, hc2, Fq6.zero_def])
  · by_cases hc1 : z.c1 = 0
    · exfalso
      have hc2 : z.c2 = 0 := by
        have hx : z.c0 * z.c2 = 0 := by
          have := h2
          rw [hc1] at this
          simpa using this
        rcases mul_eq_zero.mp hx with h' | h'
        · exact absurd h' hc0
        · exact h'
      have : z.c0 * z.c0 = 0 := by
        have := h0
        rw [hc1] at this
        simpa using this
      rcases mul_eq_zero.mp this with h' | h' <;> exact absurd h' hc0
    · refine ⟨z.c0 * z.c1⁻¹, ?_⟩
      have hcube : z.c0 * z.c0 * z.c0 =
          (⟨1, 1⟩ : Fq2) * (z.c1 * z.c1 * z.c1) := by
        linear_combination z.c0 * h0 - (⟨1, 1⟩ : Fq2) * z.c1 * h2
      field_simp
      linear_combination hcube

theorem Fq6.norm_nonzero (x : Fq6) (hx : x ≠ 0) : x.norm ≠ 0 := by
  intro hN
  by_cases hadj : x.adj = 0
  · obtain ⟨t, ht⟩ := cube_of_adj_eq_zero x hx hadj
    exact xi_not_cube t ht
  · have haa : x.adj.adj = 0 := by
      rw [Fq6.adj_adj, hN]
      apply Fq6.ext6 <;> simp [Fq6.zero_def]
    obtain ⟨t, ht⟩ := cube_of_adj_eq_zero x.adj hadj haa
    exact xi_not_cube t ht

/-! The inverse round-trip in the sextic extension, native and circuit
(claim C5). -/

/-- On invertible inputs the quadratic inverse of the source succeeds and
returns the total inverse value. -/
theorem Fq2.inverse_of_ne_zero (x : Fq2) (h : x ≠ 0) :
    Fq2.inverse x = some x.invT := by
  have hn : x.c0 * x.c0 + x.c1 * x.c1 ≠ 0 := Fq2.norm_ne_zero x h
  simp only [Fq2.inverse, Fq.inverse, if_neg h, if_neg hn]
  rfl

/-- Multiplying by the scaled adjugate triple recovers the scaled norm in
the first coefficient: the product shape behind the ark inversion formula. -/
theorem Fq6.mul_scaled_adj (x : Fq6) (t : Fq2) :
    x * ⟨t * x.adj.c0, t * x.adj.c1, t * x.adj.c2⟩ = ⟨t * x.norm, 0, 0⟩ := by
  apply Fq6.ext6 <;>
    simp only [Fq6.adj, Fq6.norm, Fq6.mulc0, Fq6.mulc1, Fq6.mulc2,
      Fq2.mul_by_nonresidue_eq] <;>
    ring

/-- On invertible inputs the sextic inverse of the source succeeds and the
result multiplies back to one. -/
theorem Fq6.inverse_spec (x : Fq6) (hx : x ≠ 0) :
    ∃ y : Fq6, x.inverse = some y ∧ x * y = 1 := by
  have hn : x.norm ≠ 0 := Fq6.norm_nonzero x hx
  refine ⟨⟨x.norm.invT * x.adj.c0, x.norm.invT * x.adj.c1,
    x.norm.invT * x.adj.c2⟩, ?_, ?_⟩
  · rw [Fq6.inverse_eq, if_neg hx, Fq2.inverse_of_ne_zero x.norm hn]
    rfl
  · rw [Fq6.mul_scaled_adj]
    have h1 : x.norm.invT * x.norm = 1 := by
      rw [mul_comm]; exact Fq2.mul_invT x.norm hn
    rw [h1]
    rfl

theorem Fq6Target.toFq6_ofFq6 (x : Fq6) : (Fq6Target.ofFq6 x).toFq6 = x := rfl

theorem Fq6Target.toFq6_injective (a b : Fq6Target) (h : a.toFq6 = b.toFq6) :
    a = b := by
  have h2 : Fq6Target.ofFq6 a.toFq6 = Fq6Target.ofFq6 b.toFq6 :=
    congrArg Fq6Target.ofFq6 h
  exact h2

/-- C5: for every non-zero sextic-extension element the inverse
round-trips, natively and in circuit form.  Natively, Fq6::inverse succeeds
and the result multiplies back to one.  In circuit form, the registered
Fq6InverseGenerator fills the inverse wires off-graph with a value that
satisfies the connect(x.mul(inv), one) constraint, the denoted product being
one; and any claimed inverse wires whose denoted product with x is not one
violate that constraint, so a wrong generator output makes the circuit
unsatisfiable rather than yielding a wrong value. -/
theorem inverse_round_trip (x : Fq6) (hx : x ≠ 0)
    (xt w : Fq6Target) (hxt : xt.toFq6 ≠ 0) :
    (∃ y : Fq6, x.inverse = some y ∧ x * y = 1) ∧
    (∃ inv : Fq6Target, Fq6InverseGenerator.run_once xt = some inv ∧
        Fq6Target.inv_constraint_holds xt inv ∧
        xt.toFq6 * inv.toFq6 = 1) ∧
    (xt.toFq6 * w.toFq6 ≠ 1 → ¬ Fq6Target.inv_constraint_holds xt w) := by
  refine ⟨Fq6.inverse_spec x hx, ?_, ?_⟩
  · obtain ⟨y, hy, hmul⟩ := Fq6.inverse_spec xt.toFq6 hxt
    refine ⟨Fq6Target.ofFq6 y, ?_, ?_, ?_⟩
    · show (xt.toFq6.inverse).map Fq6Target.ofFq6 = some (Fq6Target.ofFq6 y)
      rw [hy]
      rfl
    · show xt.mul (Fq6Target.ofFq6 y) = Fq6Target.ofFq6 1
      apply Fq6Target.toFq6_injective
      rw [Fq6Target.mul_toFq6, Fq6Target.toFq6_ofFq6, Fq6Target.toFq6_ofFq6]
      exact hmul
    · rw [Fq6Target.toFq6_ofFq6]
      exact hmul
  · intro hne hc
    apply hne
    have hc2 : xt.mul w = Fq6Target.ofFq6 1 := hc
    have h3 := congrArg Fq6Target.toFq6 hc2
    rw [Fq6Target.mul_toFq6, Fq6Target.toFq6_ofFq6] at h3
    exact h3

theorem inverse_round_trip_witness :
    ((⟨⟨2, 0⟩, 0, 0⟩ : Fq6) ≠ 0) ∧
    ((⟨2, 0, 0, 0, 0, 0⟩ : Fq6Target).toFq6 ≠ 0) ∧
    ((∃ y : Fq6, (⟨⟨2, 0⟩, 0, 0⟩ : Fq6).inverse = some y ∧
        (⟨⟨2, 0⟩, 0, 0⟩ : Fq6) * y = 1) ∧
     (∃ inv : Fq6Target,
        Fq6InverseGenerator.run_once ⟨2, 0, 0, 0, 0, 0⟩ = some inv ∧
        Fq6Target.inv_constraint_holds ⟨2, 0, 0, 0, 0, 0⟩ inv ∧
        (⟨2, 0, 0, 0, 0, 0⟩ : Fq6Target).toFq6 * inv.toFq6 = 1) ∧
     ((⟨2, 0, 0, 0, 0, 0⟩ : Fq6Target).toFq6 *
          (⟨0, 0, 0, 0, 0, 0⟩ : Fq6Target).toFq6 ≠ 1 →
        ¬ Fq6Target.inv_constraint_holds ⟨2, 0, 0, 0, 0, 0⟩
            ⟨0, 0, 0, 0, 0, 0⟩)) :=
  ⟨by decide, by decide,
   inverse_round_trip ⟨⟨2, 0⟩, 0, 0⟩ (by decide)
     ⟨2, 0, 0, 0, 0, 0⟩ ⟨0, 0, 0, 0, 0, 0⟩ (by decide)⟩

end BLS
